import Mathlib

/-!
# Verification of the logical-formula interval solver

Shallow embedding of the formula engine of `src/Solvers/15_solver.py`:
the lexer (`Lexer.tokenize`), the recursive-descent parser (`Parser`),
the AST with its evaluator, the `Segment` interval type, and the
`UniversalSolver` (point analysis and min/max interval synthesis).

Machine integers of the source are arbitrary-precision Python ints, so the
embedding uses `Int` directly.  Python exceptions are modelled by `Option`
(for evaluation-time `ValueError`) and `Except` (for construction-time
errors).  Loops whose termination is not structural are given explicit fuel
that provably suffices; the fuel values are embedding artifacts only.
-/

set_option maxHeartbeats 4000000
set_option maxRecDepth 100000

/-- Token kinds (`TokenType` in the source). -/
inductive TokenType where
  | LPAREN | RPAREN | NOT | AND | OR | IMPLIES | EQUIV | XOR | IN | VAR_X | SET_NAME | EOF
deriving DecidableEq, Repr

/-- A lexer token (`Token` dataclass in the source). -/
structure Token where
  type : TokenType
  value : String := ""
  position : Nat := 0
deriving DecidableEq, Repr

/-- The operator table `Lexer.OPERATORS`, listed in decreasing pattern
length.  The source sorts the dictionary keys by length, longest first, on
every match attempt; for patterns of equal length at most one can match a
given position (patterns are pairwise distinct strings), so the relative
order inside a length class is irrelevant. -/
def OPERATORS : List (List Char × TokenType) := [
  (['I','M','P','L','I','E','S'], .IMPLIES),
  (['E','Q','U','I','V'], .EQUIV),
  (['N','O','T'], .NOT), (['A','N','D'], .AND), (['X','O','R'], .XOR),
  (['I','F','F'], .EQUIV), (['<','-','>'], .EQUIV), (['<','=','>'], .EQUIV),
  (['/','\\'], .AND), (['\\','/'], .OR), (['-','>'], .IMPLIES), (['=','>'], .IMPLIES),
  (['O','R'], .OR), (['I','N'], .IN),
  (['¬'], .NOT), (['!'], .NOT), (['~'], .NOT), (['∧'], .AND), (['&'], .AND),
  (['∨'], .OR), (['|'], .OR), (['→'], .IMPLIES), (['≡'], .EQUIV), (['↔'], .EQUIV),
  (['⊕'], .XOR), (['^'], .XOR), (['∈'], .IN) ]

/-- `Lexer.try_match`: first pattern of the (length-sorted) table that is a
prefix of the remaining text. -/
def tryMatch (ops : List (List Char × TokenType)) (text : List Char) :
    Option (List Char × TokenType) :=
  match ops with
  | [] => none
  | (pat, ty) :: rest => if pat.isPrefixOf text then some (pat, ty) else tryMatch rest text

/-- The loop body of `Lexer.tokenize`, processing the remaining text with a
running source position.  Every pattern in `OPERATORS` is nonempty, so
consuming a matched pattern from `c :: cs` drops `pat.length - 1`
characters of `cs`; the fuel argument only makes the recursion structural
and is always supplied larger than the text length, which provably
suffices because every iteration consumes at least one character. -/
def lexGo : Nat → List Char → Nat → List Token
  | 0, _, pos => [{ type := .EOF, position := pos }]
  | _ + 1, [], pos => [{ type := .EOF, position := pos }]
  | fuel + 1, c :: cs, pos =>
    if c.isWhitespace then lexGo fuel cs (pos + 1)
    else if c = '(' then
      { type := .LPAREN, value := "(", position := pos } :: lexGo fuel cs (pos + 1)
    else if c = ')' then
      { type := .RPAREN, value := ")", position := pos } :: lexGo fuel cs (pos + 1)
    else match tryMatch OPERATORS (c :: cs) with
      | some (pat, ty) =>
        { type := ty, value := String.mk pat, position := pos } ::
          lexGo fuel (cs.drop (pat.length - 1)) (pos + pat.length)
      | none =>
        if c = 'X' then
          { type := .VAR_X, value := "x", position := pos } :: lexGo fuel cs (pos + 1)
        else if c.isAlpha then
          let name := c :: cs.takeWhile Char.isAlphanum
          let rest := cs.dropWhile Char.isAlphanum
          match OPERATORS.find? (fun p => p.1 == name) with
          | some (_, ty) =>
            { type := ty, value := String.mk name, position := pos } ::
              lexGo fuel rest (pos + name.length)
          | none =>
            { type := .SET_NAME, value := String.mk name, position := pos } ::
              lexGo fuel rest (pos + name.length)
        else lexGo fuel cs (pos + 1)

/-- Python `str.upper()` restricted to the character classes the tool
actually receives (ASCII letters and the Cyrillic letters the constructor
rewrites); all other characters are unchanged. -/
def pyUpper (c : Char) : Char :=
  if 'a' ≤ c ∧ c ≤ 'z' then Char.ofNat (c.toNat - 32)
  else if 'а' ≤ c ∧ c ≤ 'я' then Char.ofNat (c.toNat - 32)
  else if c = 'ё' then 'Ё' else c

/-- Python `str.replace(pat, repl)`: non-overlapping left-to-right
replacement.  Patterns used by the source are nonempty, so consuming a
match from `c :: cs` drops `pat.length - 1` characters of `cs`; the fuel
is an embedding artifact (always called with the text length, which
suffices since each step consumes at least one character). -/
def replaceGo : Nat → List Char → List Char → List Char → List Char
  | 0, _, _, s => s
  | fuel + 1, pat, repl, s =>
    match s with
    | [] => []
    | c :: cs =>
      if pat.isPrefixOf (c :: cs) then
        repl ++ replaceGo fuel pat repl (cs.drop (pat.length - 1))
      else c :: replaceGo fuel pat repl cs

/-- One `str.replace` call. -/
def pyReplace (pat repl s : List Char) : List Char := replaceGo s.length pat repl s

/-- The `Lexer.__init__` text normalization:
`text.upper().replace('В','IN').replace('И','AND').replace('ИЛИ','OR')`. -/
def lexerText (s : String) : List Char :=
  pyReplace ['И','Л','И'] ['O','R']
    (pyReplace ['И'] ['A','N','D']
      (pyReplace ['В'] ['I','N'] (s.data.map pyUpper)))

/-- `Lexer.tokenize` for an input string: normalize, then run the token
loop over the whole text. -/
def Lexer.tokenize (s : String) : List Token :=
  let t := lexerText s
  lexGo (t.length + 1) t 0

/-- Binary operator kinds.  The source stores the operator of a
`BinaryNode` as one of the strings `AND / OR / IMPLIES / EQUIV / XOR`
(anything else raises `ValueError`); the parser only ever constructs these
five, so a closed enumeration is the faithful shallow embedding. -/
inductive BinOp where
  | AND | OR | IMPLIES | EQUIV | XOR
deriving DecidableEq, Repr

/-- AST nodes: `MembershipNode`, `NotNode`, `BinaryNode` in the source. -/
inductive ASTNode where
  | membership (setName : String)
  | neg (operand : ASTNode)
  | binary (left : ASTNode) (op : BinOp) (right : ASTNode)
deriving DecidableEq, Repr

/-- `get_set_names`: union of the membership-leaf names (a Python set;
embedded as a list used only through membership). -/
def ASTNode.getSetNames : ASTNode → List String
  | .membership n => [n]
  | .neg o => o.getSetNames
  | .binary l _ r => l.getSetNames ∪ r.getSetNames

/-- Closed integer interval, `Segment` in the source. -/
structure Segment where
  left : Int
  right : Int
deriving DecidableEq, Repr

/-- The `Segment(left, right)` constructor: endpoints are normalized with
`min`/`max`. -/
def Segment.make (a b : Int) : Segment := ⟨min a b, max a b⟩

/-- `Segment.contains`. -/
def Segment.contains (s : Segment) (x : Int) : Bool :=
  decide (s.left ≤ x) && decide (x ≤ s.right)

/-- `Segment.length`. -/
def Segment.length (s : Segment) : Int := s.right - s.left

/-- Segment maps: Python `Dict[str, Segment]` used through key lookup and
value iteration; embedded as an association list in insertion order. -/
abbrev SegMap := List (String × Segment)

/-- Dictionary lookup (first matching key). -/
def lookupSeg : SegMap → String → Option Segment
  | [], _ => none
  | (k, v) :: m, n => if k = n then some v else lookupSeg m n

/-- The truth tables of `BinaryNode` evaluation. -/
def applyOp : BinOp → Bool → Bool → Bool
  | .AND, a, b => a && b
  | .OR, a, b => a || b
  | .IMPLIES, a, b => !a || b
  | .EQUIV, a, b => a == b
  | .XOR, a, b => a != b

/-- `UniversalSolver._evaluate_node`: recursive evaluation against a
segment map; a membership leaf whose set has no entry raises `ValueError`
(`none` here).  Both operands of a binary node are evaluated before the
operator is applied, exactly as in the source. -/
def evalNode : ASTNode → Int → SegMap → Option Bool
  | .membership n, x, segs =>
    match lookupSeg segs n with
    | none => none
    | some seg => some (seg.contains x)
  | .neg o, x, segs => (evalNode o x segs).map (fun b => !b)
  | .binary l op r, x, segs => do
    let a ← evalNode l x segs
    let b ← evalNode r x segs
    pure (applyOp op a b)

/-- Point classification (`PointRequirement` enum). -/
inductive PointRequirement where
  | MUST_BE_IN | MUST_BE_OUT | CAN_BE_EITHER | IMPOSSIBLE
deriving DecidableEq, Repr

/-- Errors of `UniversalSolver.__init__`: a `SyntaxError` escaping from the
parser, or one of the constructor's own `ValueError`s. -/
inductive SolverError where
  | syntaxError (msg : String)
  | valueError (msg : String)
deriving DecidableEq, Repr

/-- A constructed solver (`UniversalSolver` instance state). -/
structure Solver where
  formula : String
  segments : SegMap
  targetSet : String
  ast : ASTNode
deriving Repr

/-- `str.upper()` on a whole string. -/
def pyUpperStr (s : String) : String := String.mk (s.data.map pyUpper)

/-- Parser cursor: the source keeps the token list and an index.  `current`
reads the token at the index (the index never leaves the list for
lexer-produced streams, which always end in `EOF`). -/
def cur (ts : List Token) (pos : Nat) : Token := ts.getD pos { type := .EOF }

/-- `Parser.advance` moves the index forward except at the last token. -/
def adv (ts : List Token) (pos : Nat) : Nat :=
  if pos < ts.length - 1 then pos + 1 else pos

/-- The mutually recursive parsing methods of the source, defunctionalized
into one function so that the recursion is structural on the fuel (a
well-founded encoding would not reduce inside the kernel).  Each mode is
one source method; the `...Rest` modes are the source's `while` loops with
their accumulated left operand. -/
inductive PMode where
  | equiv | equivRest (left : ASTNode) | implies
  | xor | xorRest (left : ASTNode)
  | or | orRest (left : ASTNode)
  | and | andRest (left : ASTNode)
  | unary | primary

/-- One step of the recursive-descent parser; see `PMode`.  The fuel is an
embedding artifact; `Parser.parse` always supplies more than the parse can
consume. -/
def parseM : Nat → PMode → List Token → Nat → Except String (ASTNode × Nat)
  | 0, _, _, _ => .error "fuel"
  | fuel + 1, .equiv, ts, pos => do
    let (left, p) ← parseM fuel .implies ts pos
    parseM fuel (.equivRest left) ts p
  | fuel + 1, .equivRest left, ts, pos =>
    if (cur ts pos).type = .EQUIV then do
      let (right, p2) ← parseM fuel .implies ts (adv ts pos)
      parseM fuel (.equivRest (.binary left .EQUIV right)) ts p2
    else .ok (left, pos)
  | fuel + 1, .implies, ts, pos => do
    let (left, p) ← parseM fuel .xor ts pos
    if (cur ts p).type = .IMPLIES then do
      let (right, p2) ← parseM fuel .implies ts (adv ts p)
      .ok (.binary left .IMPLIES right, p2)
    else .ok (left, p)
  | fuel + 1, .xor, ts, pos => do
    let (left, p) ← parseM fuel .or ts pos
    parseM fuel (.xorRest left) ts p
  | fuel + 1, .xorRest left, ts, pos =>
    if (cur ts pos).type = .XOR then do
      let (right, p2) ← parseM fuel .or ts (adv ts pos)
      parseM fuel (.xorRest (.binary left .XOR right)) ts p2
    else .ok (left, pos)
  | fuel + 1, .or, ts, pos => do
    let (left, p) ← parseM fuel .and ts pos
    parseM fuel (.orRest left) ts p
  | fuel + 1, .orRest left, ts, pos =>
    if (cur ts pos).type = .OR then do
      let (right, p2) ← parseM fuel .and ts (adv ts pos)
      parseM fuel (.orRest (.binary left .OR right)) ts p2
    else .ok (left, pos)
  | fuel + 1, .and, ts, pos => do
    let (left, p) ← parseM fuel .unary ts pos
    parseM fuel (.andRest left) ts p
  | fuel + 1, .andRest left, ts, pos =>
    if (cur ts pos).type = .AND then do
      let (right, p2) ← parseM fuel .unary ts (adv ts pos)
      parseM fuel (.andRest (.binary left .AND right)) ts p2
    else .ok (left, pos)
  | fuel + 1, .unary, ts, pos =>
    if (cur ts pos).type = .NOT then do
      let (operand, p2) ← parseM fuel .unary ts (adv ts pos)
      .ok (.neg operand, p2)
    else parseM fuel .primary ts pos
  | fuel + 1, .primary, ts, pos =>
    if (cur ts pos).type = .LPAREN then do
      let (e, p2) ← parseM fuel .equiv ts (adv ts pos)
      if (cur ts p2).type = .RPAREN then .ok (e, adv ts p2)
      else .error "Ожидался RPAREN"
    else if (cur ts pos).type = .VAR_X then
      let p1 := adv ts pos
      let p2 := if (cur ts p1).type = .IN then adv ts p1 else p1
      if (cur ts p2).type = .SET_NAME then .ok (.membership (cur ts p2).value, adv ts p2)
      else .error "Ожидалось имя множества после x"
    else if (cur ts pos).type = .SET_NAME then
      .ok (.membership (cur ts pos).value, adv ts pos)
    else .error "Неожиданный токен"

/-- `Parser.parse_equiv`. -/
def parseEquiv (fuel : Nat) : List Token → Nat → Except String (ASTNode × Nat) :=
  parseM fuel .equiv

/-- `Parser.parse`: parse a complete expression, requiring `EOF` at the
end.  The fuel is generous: each nested parse call consumes at most a
constant amount per token. -/
def Parser.parse (ts : List Token) : Except String ASTNode := do
  let (ast, pos) ← parseEquiv (10 * (ts.length + 1)) ts 0
  if (cur ts pos).type = .EOF then pure ast
  else .error "Неожиданный токен после выражения"

/-- Lex and parse a formula string. -/
def parseFormula (s : String) : Except String ASTNode :=
  Parser.parse (Lexer.tokenize s)

/-- `UniversalSolver.__init__`: parse eagerly, upper-case the target name,
require the target to occur in the formula, and require every other
referenced set to be defined.  (The source's error messages carry quoted
names; the message text is abbreviated here, the error kind is what the
claims are about.) -/
def mkSolver (formula : String) (segments : SegMap) (targetSet : String) :
    Except SolverError Solver :=
  let target := pyUpperStr targetSet
  match parseFormula formula with
  | .error e => .error (.syntaxError e)
  | .ok ast =>
    let allSets := ast.getSetNames
    if target ∈ allSets then
      if allSets.any (fun s => (s != target) && (lookupSeg segments s).isNone) then
        .error (.valueError "Множество не определено")
      else .ok ⟨formula, segments, target, ast⟩
    else .error (.valueError ("Множество не найдено в формуле: " ++ target))

/-- The synthetic segment substituted for the target set at point `x`:
`{x}` when membership is forced true, an interval a million away when
forced false. -/
def tempSegment (x : Int) (targetInA : Bool) : Segment :=
  if targetInA then Segment.make x x else Segment.make (x + 1000000) (x + 1000001)

/-- `{**segments, target: temp}`: a map whose lookup returns `temp` for
the target key and falls through to `segments` otherwise (the embedding
only ever reads the merged dictionary through lookup). -/
def updateSeg (m : SegMap) (k : String) (v : Segment) : SegMap := (k, v) :: m

/-- `UniversalSolver.evaluate_with_target`. -/
def evaluateWithTarget (ast : ASTNode) (segments : SegMap) (target : String)
    (x : Int) (targetInA : Bool) : Option Bool :=
  evalNode ast x (updateSeg segments target (tempSegment x targetInA))

/-- `UniversalSolver.analyze_point`. -/
def analyzePoint (ast : ASTNode) (segments : SegMap) (target : String)
    (x : Int) : Option PointRequirement := do
  let trueIfIn ← evaluateWithTarget ast segments target x true
  let trueIfOut ← evaluateWithTarget ast segments target x false
  pure (if trueIfIn && trueIfOut then .CAN_BE_EITHER
        else if trueIfIn && !trueIfOut then .MUST_BE_IN
        else if !trueIfIn && trueIfOut then .MUST_BE_OUT
        else .IMPOSSIBLE)

/-- Python `sorted` on integers. -/
def sortInts (l : List Int) : List Int := l.insertionSort (· ≤ ·)

/-- Deduplication (Python `set(...)`, which is then always sorted before
iteration in the source, so only membership matters). -/
def dedupInts : List Int → List Int
  | [] => []
  | x :: xs => if x ∈ xs then dedupInts xs else x :: dedupInts xs

/-- `sorted(set(l))`. -/
def sortedSet (l : List Int) : List Int := sortInts (dedupInts l)

/-- Python `range(a, b + 1)` as a list of integers. -/
def intRangeIncl (a b : Int) : List Int :=
  (List.range (b + 1 - a).toNat).map (fun (i : Nat) => a + (i : Int))

/-- Python `min` of a nonempty list (the default is never used by the
source paths, which guard emptiness first). -/
def listMin : List Int → Int
  | [] => 0
  | x :: xs => xs.foldl min x

/-- Python `max` of a nonempty list. -/
def listMax : List Int → Int
  | [] => 0
  | x :: xs => xs.foldl max x

/-- The `while right + 1 in available and right + 1 not in must_out` loop
of `_find_max_segment`.  The fuel (always the number of available points)
suffices because each iteration moves to a distinct available point. -/
def extendRight (available mustOut : List Int) : Nat → Int → Int
  | 0, r => r
  | fuel + 1, r =>
    if (r + 1) ∈ available ∧ (r + 1) ∉ mustOut then
      extendRight available mustOut fuel (r + 1)
    else r

/-- The loop body of the per-left-endpoint scan of `_find_max_segment`:
extend from `left` as far as available points allow, then keep the
interval if it is strictly longer than the best and has no `must_out`
point inside. -/
def maxStep (points must_out : List Int) (best : Int × Option Segment) (left : Int) :
    Int × Option Segment :=
  let right := extendRight points must_out points.length left
  let len := right - left
  if len > best.1 then
    if must_out.any (fun p => decide (left ≤ p) && decide (p ≤ right)) then best
    else (len, some (Segment.make left right))
  else best

/-- The loop body of the gap-between-barriers scan of
`_find_max_segment`. -/
def gapStep (best : Int × Option Segment) (br : Int × Int) : Int × Option Segment :=
  let segment_left := br.1 + 1
  let segment_right := br.2 - 1
  if segment_left > segment_right then best
  else
    let len := segment_right - segment_left
    if len > best.1 then (len, some (Segment.make segment_left segment_right)) else best

/-- `UniversalSolver._find_max_segment`: the per-left-endpoint scan
followed by the gap-between-barriers scan, keeping whichever finds a
strictly longer interval.  (The source also computes two unused local
lists `contained_must_in` / `missing_must_in`; they have no effect and are
omitted.) -/
def findMaxSegment (must_in must_out can_either : List Int) (min_p max_p : Int) :
    Int × Option Segment :=
  if must_in.isEmpty && can_either.isEmpty then (0, none)
  else
    let points := sortedSet (must_in ++ can_either)
    if points.isEmpty then (0, none)
    else
      let step1 := points.foldl (maxStep points must_out) ((0 : Int), (none : Option Segment))
      let sorted_must_out := sortedSet must_out
      let barriers := (min_p - 1) :: sorted_must_out ++ [max_p + 1]
      (barriers.zip barriers.tail).foldl gapStep step1

/-- `UniversalSolver._find_min_segment`: cover all `must_in` points; fail
if a `must_out` point lies in the span. -/
def findMinSegment (must_in must_out : List Int) : Int × Option Segment :=
  if must_in.isEmpty then (0, none)
  else
    let left := listMin must_in
    let right := listMax must_in
    if (intRangeIncl left right).any (fun x => decide (x ∈ must_out)) then ((-1 : Int), none)
    else (right - left, some (Segment.make left right))

/-- Render one maximal run for `_format_points`. -/
def renderRunStr (a b : Int) : String :=
  if a = b then toString a else "[" ++ toString a ++ ".." ++ toString b ++ "]"

/-- The interval-compression loop of `_format_points` (running
`start`/`end` accumulators over the sorted points). -/
def formatPointsAux (start endv : Int) : List Int → List String
  | [] => [renderRunStr start endv]
  | p :: ps =>
    if p = endv + 1 then formatPointsAux start p ps
    else renderRunStr start endv :: formatPointsAux p p ps

/-- `UniversalSolver._format_points`: compressed run-length rendering. -/
def formatPoints (points : List Int) : String :=
  match sortInts points with
  | [] => "∅"
  | p :: ps => String.intercalate ", " (formatPointsAux p p ps)

/-- `UniversalSolver._format_impossible` (message text without the
source's inner quote characters). -/
def formatImpossible (target : String) (points : List Int) : String :=
  "ОШИБКА: Формула не может быть тождественно истинной!\n" ++
  "В точках " ++ formatPoints points ++ " формула ложна при любом значении (x ∈ " ++
  target ++ ")"

/-- `repr(seg)` of the source: `[left, right]`. -/
def reprSegment (s : Segment) : String :=
  "[" ++ toString s.left ++ ", " ++ toString s.right ++ "]"

/-- `UniversalSolver._format_explanation`. -/
def formatExplanation (s : Solver) (must_in must_out can_either : List Int)
    (result : Int) (segment : Option Segment) (find_max : Bool) : String :=
  let bar := String.mk (List.replicate 60 '═')
  let dash := String.mk (List.replicate 60 '─')
  let lines : List String :=
    [bar, "  РЕШЕНИЕ ЗАДАЧИ", bar, "",
     "  Формула: " ++ s.formula,
     "  Искомое множество: " ++ s.targetSet,
     "  Задача: найти " ++ (if find_max then "МАКСИМАЛЬНУЮ" else "МИНИМАЛЬНУЮ") ++ " длину",
     "", dash, "  Исходные данные:", dash]
    ++ s.segments.map (fun kv => "    " ++ kv.1 ++ " = " ++ reprSegment kv.2)
    ++ ["", dash, "  Анализ точек (для каких x формула истинна):", dash, ""]
    ++ (if !must_in.isEmpty then
          ["  ✓ Точки, которые ДОЛЖНЫ быть в " ++ s.targetSet ++ ":",
           "    " ++ formatPoints must_in, ""] else [])
    ++ (if !must_out.isEmpty then
          ["  ✗ Точки, которые НЕ ДОЛЖНЫ быть в " ++ s.targetSet ++ ":",
           "    " ++ formatPoints must_out, ""] else [])
    ++ (if !can_either.isEmpty && find_max then
          ["  ○ Точки, которые МОГУТ быть в " ++ s.targetSet ++ ":",
           "    " ++ formatPoints can_either, ""] else [])
    ++ [dash, "  РЕЗУЛЬТАТ:", dash, ""]
    ++ (if result < 0 then ["  ❌ Задача не имеет решения!"]
        else match segment with
          | some seg =>
            ["  Оптимальный отрезок " ++ s.targetSet ++ " = " ++ reprSegment seg,
             "  Длина = " ++ toString result]
          | none => ["  Длина = " ++ toString result])
    ++ ["", bar]
  String.intercalate "\n" lines

/-! ## Specification-side definitions

These definitions are written from the wording of the specification (not
from the source) and are used to state the claims: an oracle-style
evaluation in which the target's membership is a directly substituted
boolean, the classification it induces, run grouping for maximal
contiguous runs, and the best-run selection of maximum mode. -/

/-- Spec-side evaluation: the membership of the target set is the given
boolean; every other membership is taken from the real segment map
(`none` models the undefined-set error). -/
def evalOracle (node : ASTNode) (x : Int) (segments : SegMap) (target : String)
    (b : Bool) : Option Bool :=
  match node with
  | .membership n =>
    if n = target then some b
    else
      match lookupSeg segments n with
      | none => none
      | some seg => some (seg.contains x)
  | .neg o => (evalOracle o x segments target b).map (fun v => !v)
  | .binary l op r => do
    let a ← evalOracle l x segments target b
    let c ← evalOracle r x segments target b
    pure (applyOp op a c)

/-- Spec-side classification: evaluate with the target's membership forced
true and forced false, then classify — true in both cases `CAN_BE_EITHER`,
true only when in `MUST_BE_IN`, true only when out `MUST_BE_OUT`, false in
both cases `IMPOSSIBLE`. -/
def classifySpec (ast : ASTNode) (segments : SegMap) (target : String)
    (x : Int) : Option PointRequirement := do
  let tin ← evalOracle ast x segments target true
  let tout ← evalOracle ast x segments target false
  pure (if tin && tout then .CAN_BE_EITHER
        else if tin && !tout then .MUST_BE_IN
        else if !tin && tout then .MUST_BE_OUT
        else .IMPOSSIBLE)

/-- Removing a key from a segment map (`del segments[target]`). -/
def eraseKey (m : SegMap) (k : String) : SegMap := m.filter (fun kv => kv.1 != k)

/-- Group a sorted list of integers into maximal runs of consecutive
values, carrying the current run `[start, endv]`. -/
def groupRunsAux (start endv : Int) : List Int → List (Int × Int)
  | [] => [(start, endv)]
  | y :: ys =>
    if y = endv + 1 then groupRunsAux start y ys
    else (start, endv) :: groupRunsAux y y ys

/-- Maximal runs of consecutive integers of a sorted list. -/
def groupRuns : List Int → List (Int × Int)
  | [] => []
  | x :: xs => groupRunsAux x x xs

/-- One selection step of the spec-side best-run computation: keep the
run if it is strictly longer than the best so far. -/
def specStep (best : Int × Option Segment) (ab : Int × Int) : Int × Option Segment :=
  if ab.2 - ab.1 > best.1 then (ab.2 - ab.1, some (Segment.make ab.1 ab.2)) else best

/-- Spec-side best run: the leftmost run maximizing `right − left`,
provided that maximum is positive; `(0, none)` otherwise. -/
def specBestRun (runs : List (Int × Int)) : Int × Option Segment :=
  runs.foldl specStep ((0 : Int), (none : Option Segment))

/-- The available points (union of `MUST_BE_IN` and `CAN_BE_EITHER`) of a
universe under a classification. -/
def availList (c : Int → PointRequirement) (univ : List Int) : List Int :=
  univ.filter (fun x => decide (c x = .MUST_BE_IN ∨ c x = .CAN_BE_EITHER))

/-- Spec-side compressed run-length rendering: sort, group into maximal
runs, collapse each run `[a..b]` (singletons literal), join with commas. -/
def runLengthRender (l : List Int) : String :=
  String.intercalate ", " ((groupRuns (sortInts l)).map (fun ab => renderRunStr ab.1 ab.2))

/-! ## Concrete instances used by the claims -/

/-- AST of `((x∈P)≡(x∈Q))→¬(x∈A)`. -/
def astMaxEx : ASTNode :=
  .binary (.binary (.membership "P") .EQUIV (.membership "Q")) .IMPLIES (.neg (.membership "A"))

/-- The maximum-mode example: `P=[5,30]`, `Q=[14,23]`, target `A`. -/
def solverMaxEx : Solver :=
  ⟨"((x∈P)≡(x∈Q))→¬(x∈A)", [("P", Segment.make 5 30), ("Q", Segment.make 14 23)], "A", astMaxEx⟩

/-- Classification of `solverMaxEx` on its analysis universe `[-5, 40]`. -/
def classMaxEx (x : Int) : PointRequirement :=
  if (5 ≤ x ∧ x ≤ 13) ∨ (24 ≤ x ∧ x ≤ 30) then .CAN_BE_EITHER else .MUST_BE_OUT

/-- AST of `(x∈A)→(x∈P)`. -/
def astSingleton : ASTNode := .binary (.membership "A") .IMPLIES (.membership "P")

/-- A solver whose only available point is the singleton `{5}`:
`(x∈A)→(x∈P)` with `P=[5,5]`, target `A`. -/
def solverSingleton : Solver :=
  ⟨"(x∈A)→(x∈P)", [("P", Segment.make 5 5)], "A", astSingleton⟩

/-- AST of `(x∈P)→(x∈A)`. -/
def astMinEx : ASTNode := .binary (.membership "P") .IMPLIES (.membership "A")

/-- The minimum-mode example: `P=[5,10]`, target `A`. -/
def solverMinEx : Solver :=
  ⟨"(x∈P)→(x∈A)", [("P", Segment.make 5 10)], "A", astMinEx⟩

/-- Classification of `solverMinEx` on its analysis universe `[-5, 20]`. -/
def classMinEx (x : Int) : PointRequirement :=
  if 5 ≤ x ∧ x ≤ 10 then .MUST_BE_IN else .CAN_BE_EITHER

/-- AST of `(x∈P)∧(x∈A)∧¬(x∈A)`. -/
def astUnsat : ASTNode :=
  .binary (.binary (.membership "P") .AND (.membership "A")) .AND (.neg (.membership "A"))

/-- An unsatisfiable instance: `(x∈P)∧(x∈A)∧¬(x∈A)`, `P=[5,10]`,
target `A` — every universe point is `IMPOSSIBLE`. -/
def solverUnsat : Solver :=
  ⟨"(x∈P)∧(x∈A)∧¬(x∈A)", [("P", Segment.make 5 10)], "A", astUnsat⟩

/-- AST of `(x∈A)∨(x∈P)`. -/
def astTargetEntry : ASTNode := .binary (.membership "A") .OR (.membership "P")

/-- `(x∈A)∨(x∈P)` with the target `A` present in the segment map. -/
def solverWithTargetEntry : Solver :=
  ⟨"(x∈A)∨(x∈P)", [("P", Segment.make 0 5), ("A", Segment.make 0 100)], "A", astTargetEntry⟩

/-- The same instance with the target's entry removed from the map. -/
def solverNoTargetEntry : Solver :=
  ⟨"(x∈A)∨(x∈P)", [("P", Segment.make 0 5)], "A", astTargetEntry⟩

/-- AST of `(x∈A)∧¬(x∈A)`. -/
def astContradiction : ASTNode := .binary (.membership "A") .AND (.neg (.membership "A"))

/-- All interval endpoints of the known segments (`all_points`). -/
def allPoints (segments : SegMap) : List Int :=
  segments.flatMap (fun kv => [kv.2.left, kv.2.right])

/-- `min_point = min(all_points) - 10`. -/
def minPoint (segments : SegMap) : Int := listMin (allPoints segments) - 10

/-- `max_point = max(all_points) + 10`. -/
def maxPoint (segments : SegMap) : Int := listMax (allPoints segments) + 10

/-- The analysis universe `range(min_point, max_point + 1)`. -/
def universeList (segments : SegMap) : List Int :=
  intRangeIncl (minPoint segments) (maxPoint segments)

/-- The per-point classification loop of `solve`: classify every point,
aborting (exception propagation) as soon as one classification raises. -/
def classifyAll (f : Int → Option PointRequirement) :
    List Int → Option (List PointRequirement)
  | [] => some []
  | x :: xs => do
    let r ← f x
    let rs ← classifyAll f xs
    pure (r :: rs)

/-- `UniversalSolver.solve`.  Returns `none` when a `ValueError` escapes
the per-point evaluation (impossible for validated construction), and
otherwise the `(length, interval, explanation)` triple of the source. -/
def Solver.solve (s : Solver) (find_max : Bool) : Option (Int × Option Segment × String) :=
  if (allPoints s.segments).isEmpty then some (0, none, "Нет определённых отрезков")
  else
    match classifyAll (analyzePoint s.ast s.segments s.targetSet) (universeList s.segments) with
    | none => none
    | some reqs =>
      let pts := (universeList s.segments).zip reqs
      let must_in := pts.filterMap (fun pr => if pr.2 = .MUST_BE_IN then some pr.1 else none)
      let must_out := pts.filterMap (fun pr => if pr.2 = .MUST_BE_OUT then some pr.1 else none)
      let can_either := pts.filterMap (fun pr => if pr.2 = .CAN_BE_EITHER then some pr.1 else none)
      let impossible := pts.filterMap (fun pr => if pr.2 = .IMPOSSIBLE then some pr.1 else none)
      if !impossible.isEmpty then some (-1, none, formatImpossible s.targetSet impossible)
      else
        let rs := if find_max then
            findMaxSegment must_in must_out can_either (minPoint s.segments) (maxPoint s.segments)
          else findMinSegment must_in must_out
        some (rs.1, rs.2, formatExplanation s must_in must_out can_either rs.1 rs.2 find_max)

/-- The `MUST_BE_IN` points of the analysis universe under a
classification. -/
def mustInOf (c : Int → PointRequirement) (segs : SegMap) : List Int :=
  (universeList segs).filter (fun x => decide (c x = .MUST_BE_IN))

/-- The `MUST_BE_OUT` points of the analysis universe under a
classification. -/
def mustOutOf (c : Int → PointRequirement) (segs : SegMap) : List Int :=
  (universeList segs).filter (fun x => decide (c x = .MUST_BE_OUT))

/-- The `CAN_BE_EITHER` points of the analysis universe under a
classification. -/
def canEitherOf (c : Int → PointRequirement) (segs : SegMap) : List Int :=
  (universeList segs).filter (fun x => decide (c x = .CAN_BE_EITHER))

/-- The `IMPOSSIBLE` points of the analysis universe under a
classification. -/
def impossibleOf (c : Int → PointRequirement) (segs : SegMap) : List Int :=
  (universeList segs).filter (fun x => decide (c x = .IMPOSSIBLE))

/-! ## Helper lemmas -/

theorem lookup_updateSeg (m : SegMap) (k : String) (v : Segment) (n : String) :
    lookupSeg (updateSeg m k v) n = if k = n then some v else lookupSeg m n := rfl

theorem tempSegment_contains_self_true (x : Int) :
    (tempSegment x true).contains x = true := by
  simp [tempSegment, Segment.make, Segment.contains]

theorem tempSegment_true_eq (x : Int) : tempSegment x true = ⟨x, x⟩ := by
  simp [tempSegment, Segment.make]

theorem tempSegment_false_eq (x : Int) :
    tempSegment x false = ⟨x + 1000000, x + 1000001⟩ := by
  simp only [tempSegment, Bool.false_eq_true, if_false, Segment.make, Segment.mk.injEq]
  exact ⟨min_eq_left (by omega), max_eq_right (by omega)⟩

theorem tempSegment_contains_self_false (x : Int) :
    (tempSegment x false).contains x = false := by
  rw [tempSegment_false_eq]
  simp only [Segment.contains, Bool.and_eq_false_iff, decide_eq_false_iff_not]
  omega

theorem tempSegment_true_contains_iff (x y : Int) :
    (tempSegment x true).contains y = decide (y = x) := by
  rw [tempSegment_true_eq]
  by_cases h : y = x
  · simp [Segment.contains, h]
  · rw [decide_eq_false h]
    simp only [Segment.contains, Bool.and_eq_false_iff, decide_eq_false_iff_not]
    omega

theorem evalNode_update_eq_oracle (node : ASTNode) (x : Int) (segs : SegMap)
    (target : String) (b : Bool) :
    evalNode node x (updateSeg segs target (tempSegment x b)) =
      evalOracle node x segs target b := by
  induction node with
  | membership n =>
    by_cases h : n = target
    · subst h
      cases b <;>
        simp [evalNode, evalOracle, lookup_updateSeg,
          tempSegment_contains_self_true, tempSegment_contains_self_false]
    · have h' : target ≠ n := fun e => h e.symm
      simp [evalNode, evalOracle, lookup_updateSeg, h, h']
  | neg o ih => simp [evalNode, evalOracle, ih]
  | binary l op r ihl ihr => simp [evalNode, evalOracle, ihl, ihr]

/-! ## Claim theorems -/

/-- Claim C1: for every integer `x`, `analyze_point(x)` evaluates the
formula once with the target's membership at `x` forced true — via a
synthetic one-point interval equal to `{x}` — and once forced false — via
a synthetic interval not containing `x` — with all other memberships taken
from the real segment map, and classifies `CAN_BE_EITHER` when both
evaluations are true, `MUST_BE_IN` when only the forced-true one is true,
`MUST_BE_OUT` when only the forced-false one is true, and `IMPOSSIBLE`
when both are false.  `classifySpec`/`evalOracle` are the spec-side
definitions of that procedure. -/
theorem analyzePoint_eq_classifySpec :
    (∀ (x y : Int), (tempSegment x true).contains y = decide (y = x))
    ∧ (∀ x : Int, (tempSegment x false).contains x = false)
    ∧ (∀ (ast : ASTNode) (segs : SegMap) (target : String) (x : Int),
        analyzePoint ast segs target x = classifySpec ast segs target x) := by
  refine ⟨tempSegment_true_contains_iff, tempSegment_contains_self_false, ?_⟩
  intro ast segs target x
  unfold analyzePoint classifySpec evaluateWithTarget
  rw [evalNode_update_eq_oracle, evalNode_update_eq_oracle]

theorem lookup_eraseKey_ne (m : SegMap) (k n : String) (h : n ≠ k) :
    lookupSeg (eraseKey m k) n = lookupSeg m n := by
  induction m with
  | nil => rfl
  | cons kv m ih =>
    by_cases hk : kv.1 = k
    · have : (kv.1 != k) = false := by simp [hk]
      have hkn : kv.1 ≠ n := by rw [hk]; exact fun e => h e.symm
      simp only [eraseKey, List.filter] at ih ⊢
      rw [this]
      cases kv with
      | mk k1 v1 => simpa [lookupSeg, show k1 ≠ n from hkn] using ih
    · have : (kv.1 != k) = true := by simp [hk]
      simp only [eraseKey, List.filter] at ih ⊢
      rw [this]
      cases kv with
      | mk k1 v1 =>
        by_cases h1 : k1 = n
        · simp [lookupSeg, h1]
        · simpa [lookupSeg, h1] using ih

theorem evalNode_ext (node : ASTNode) (x : Int) (m1 m2 : SegMap)
    (h : ∀ n, lookupSeg m1 n = lookupSeg m2 n) :
    evalNode node x m1 = evalNode node x m2 := by
  induction node with
  | membership n => simp [evalNode, h n]
  | neg o ih => simp [evalNode, ih]
  | binary l op r ihl ihr => simp [evalNode, ihl, ihr]

/-- Claim C6 (amended): the per-point analysis ignores any entry of the
target set in the segment map — `evaluate_with_target` always overrides
the target's key with the synthetic segment — so the classification of
every point is identical whether or not the target has an entry.  (The
analysis universe of `solve`, however, is computed from all map entries
including the target's, so the returned `(length, interval)` may differ;
see the counterexample.  In the application the GUI removes the target's
entry before constructing the solver.) -/
theorem analyzePoint_ignores_target_entry :
    ∀ (ast : ASTNode) (segs : SegMap) (target : String) (x : Int),
      analyzePoint ast segs target x = analyzePoint ast (eraseKey segs target) target x := by
  intro ast segs target x
  unfold analyzePoint evaluateWithTarget
  have key : ∀ (t : Segment) (n : String),
      lookupSeg (updateSeg segs target t) n =
        lookupSeg (updateSeg (eraseKey segs target) target t) n := by
    intro t n
    by_cases h : n = target
    · subst h
      simp [lookup_updateSeg]
    · have h' : target ≠ n := fun e => h e.symm
      rw [lookup_updateSeg, lookup_updateSeg, if_neg h', if_neg h',
        lookup_eraseKey_ne segs target n h]
  rw [evalNode_ext _ x _ _ (key (tempSegment x true)),
    evalNode_ext _ x _ _ (key (tempSegment x false))]

/-- Claim C6, counterexample: with the target `A` present in the segment
map (`A = [0,100]`, `P = [0,5]`, formula `(x∈A)∨(x∈P)`), `solve` in
minimum mode returns length 120 with interval `[-10, 110]`, while removing
the target's entry gives length 25 with interval `[-10, 15]` — the target
entry widens the analysis universe, so the results are not the same. -/
theorem solve_differs_with_target_entry :
    solverNoTargetEntry.segments = eraseKey solverWithTargetEntry.segments "A"
    ∧ (solverWithTargetEntry.solve false).map (fun r => (r.1, r.2.1)) =
        some (120, some ⟨-10, 110⟩)
    ∧ (solverNoTargetEntry.solve false).map (fun r => (r.1, r.2.1)) =
        some (25, some ⟨-10, 15⟩)
    ∧ (solverWithTargetEntry.solve false).map (fun r => (r.1, r.2.1)) ≠
        (solverNoTargetEntry.solve false).map (fun r => (r.1, r.2.1)) := by
  refine ⟨by decide, by decide, by decide, by decide⟩

/-- Claim C8: implication parses right-associatively and every other
binary operator left-associatively: `A IMPLIES B IMPLIES C` parses as
`Binary(A, IMPLIES, Binary(B, IMPLIES, C))`, while `A op B op C` for
`AND`, `OR`, `XOR`, `EQUIV` parses as `Binary(Binary(A, op, B), op, C)`. -/
theorem parse_associativity :
    (Parser.parse [⟨.SET_NAME, "A", 0⟩, ⟨.IMPLIES, "→", 1⟩, ⟨.SET_NAME, "B", 2⟩,
        ⟨.IMPLIES, "→", 3⟩, ⟨.SET_NAME, "C", 4⟩, ⟨.EOF, "", 5⟩] =
      .ok (.binary (.membership "A") .IMPLIES
        (.binary (.membership "B") .IMPLIES (.membership "C"))))
    ∧ (Parser.parse [⟨.SET_NAME, "A", 0⟩, ⟨.AND, "∧", 1⟩, ⟨.SET_NAME, "B", 2⟩,
        ⟨.AND, "∧", 3⟩, ⟨.SET_NAME, "C", 4⟩, ⟨.EOF, "", 5⟩] =
      .ok (.binary (.binary (.membership "A") .AND (.membership "B")) .AND (.membership "C")))
    ∧ (Parser.parse [⟨.SET_NAME, "A", 0⟩, ⟨.OR, "∨", 1⟩, ⟨.SET_NAME, "B", 2⟩,
        ⟨.OR, "∨", 3⟩, ⟨.SET_NAME, "C", 4⟩, ⟨.EOF, "", 5⟩] =
      .ok (.binary (.binary (.membership "A") .OR (.membership "B")) .OR (.membership "C")))
    ∧ (Parser.parse [⟨.SET_NAME, "A", 0⟩, ⟨.XOR, "⊕", 1⟩, ⟨.SET_NAME, "B", 2⟩,
        ⟨.XOR, "⊕", 3⟩, ⟨.SET_NAME, "C", 4⟩, ⟨.EOF, "", 5⟩] =
      .ok (.binary (.binary (.membership "A") .XOR (.membership "B")) .XOR (.membership "C")))
    ∧ (Parser.parse [⟨.SET_NAME, "A", 0⟩, ⟨.EQUIV, "≡", 1⟩, ⟨.SET_NAME, "B", 2⟩,
        ⟨.EQUIV, "≡", 3⟩, ⟨.SET_NAME, "C", 4⟩, ⟨.EOF, "", 5⟩] =
      .ok (.binary (.binary (.membership "A") .EQUIV (.membership "B")) .EQUIV (.membership "C"))) :=
  ⟨rfl, rfl, rfl, rfl, rfl⟩

/-- Claim C10: with an empty segment map, `solve` returns
`(0, none, "Нет определённых отрезков")` immediately in both maximum and
minimum mode, without classifying any point — in particular for the
everywhere-false formula `(x∈A)∧¬(x∈A)` with target `A`, for which no
`-1` unsatisfiability signal is produced. -/
theorem solve_empty_segments_trivial :
    (∀ (formula : String) (targetSet : String) (ast : ASTNode) (find_max : Bool),
      (Solver.mk formula [] targetSet ast).solve find_max =
        some (0, none, "Нет определённых отрезков"))
    ∧ parseFormula "(x∈A)∧¬(x∈A)" = .ok astContradiction
    ∧ (∀ find_max : Bool,
        (Solver.mk "(x∈A)∧¬(x∈A)" [] "A" astContradiction).solve find_max =
          some (0, none, "Нет определённых отрезков")) := by
  refine ⟨fun formula targetSet ast find_max => ?_, rfl, fun find_max => ?_⟩
  · simp [Solver.solve, allPoints]
  · simp [Solver.solve, allPoints]

/-- Claim C5: given that the formula parses, construction fails with a
`ValueError`-kind error exactly when the upper-cased target name is not
among the set names of the parsed formula, or when some non-target set
name of the formula has no entry in the segment map; in particular a
formula referencing a set `Z` that is neither in the map nor the target
fails at construction. -/
theorem mkSolver_valueError_iff :
    (∀ (formula : String) (segments : SegMap) (targetSet : String) (ast : ASTNode),
      parseFormula formula = .ok ast →
      ((∃ msg, mkSolver formula segments targetSet = .error (.valueError msg)) ↔
        (pyUpperStr targetSet ∉ ast.getSetNames ∨
          ∃ s ∈ ast.getSetNames, s ≠ pyUpperStr targetSet ∧ lookupSeg segments s = none)))
    ∧ (∃ msg, mkSolver "(X∈Z)∧(X∈A)" [("P", Segment.make 0 5)] "A" =
        .error (.valueError msg)) := by
  constructor
  · intro formula segments targetSet ast h
    simp only [mkSolver, h]
    by_cases ht : pyUpperStr targetSet ∈ ast.getSetNames
    · rw [if_pos ht]
      by_cases hany : (ast.getSetNames.any
          (fun s => (s != pyUpperStr targetSet) && (lookupSeg segments s).isNone)) = true
      · rw [if_pos hany]
        constructor
        · intro _
          right
          rw [List.any_eq_true] at hany
          obtain ⟨s, hs, hcond⟩ := hany
          rw [Bool.and_eq_true, bne_iff_ne, Option.isNone_iff_eq_none] at hcond
          exact ⟨s, hs, hcond.1, hcond.2⟩
        · intro _
          exact ⟨_, rfl⟩
      · rw [if_neg hany]
        constructor
        · rintro ⟨msg, hmsg⟩
          exact absurd hmsg (by simp)
        · rintro (hl | ⟨s, hs, hne, hnone⟩)
          · exact absurd ht hl
          · exact absurd (List.any_eq_true.mpr ⟨s, hs, by
              rw [Bool.and_eq_true, bne_iff_ne, Option.isNone_iff_eq_none]
              exact ⟨hne, hnone⟩⟩) hany
    · rw [if_neg ht]
      constructor
      · intro _
        exact Or.inl ht
      · intro _
        exact ⟨_, rfl⟩
  · exact ⟨_, rfl⟩

/-- Witness for C5: the characterization instantiated at the concrete
`Z`-referencing instance, with the parse hypothesis discharged. -/
theorem mkSolver_valueError_iff_witness :
    (∃ msg, mkSolver "(X∈Z)∧(X∈A)" [("P", Segment.make 0 5)] "A" =
        .error (.valueError msg)) ↔
      (pyUpperStr "A" ∉ (ASTNode.binary (.membership "Z") .AND (.membership "A")).getSetNames ∨
        ∃ s ∈ (ASTNode.binary (.membership "Z") .AND (.membership "A")).getSetNames,
          s ≠ pyUpperStr "A" ∧ lookupSeg [("P", Segment.make 0 5)] s = none) :=
  mkSolver_valueError_iff.1 "(X∈Z)∧(X∈A)" [("P", Segment.make 0 5)] "A"
    (ASTNode.binary (.membership "Z") .AND (.membership "A")) rfl

theorem isAlpha_not_whitespace {c : Char} (h : c.isAlpha = true) : c.isWhitespace = false := by
  cases hw : c.isWhitespace
  · rfl
  · exfalso
    have hc : ((c = ' ' ∨ c = '\t') ∨ c = '\x0d') ∨ c = '\n' := by
      simpa [Char.isWhitespace] using hw
    rcases hc with ((rfl | rfl) | rfl) | rfl <;> exact absurd h (by decide)

theorem isAlpha_ne_lparen {c : Char} (h : c.isAlpha = true) : c ≠ '(' := by
  intro e
  subst e
  exact absurd h (by decide)

theorem isAlpha_ne_rparen {c : Char} (h : c.isAlpha = true) : c ≠ ')' := by
  intro e
  subst e
  exact absurd h (by decide)

theorem tryMatch_none_no_prefix {ops : List (List Char × TokenType)} {text : List Char}
    (h : tryMatch ops text = none) :
    ∀ p ∈ ops, p.1.isPrefixOf text = false := by
  induction ops with
  | nil => intro p hp; cases hp
  | cons q qs ih =>
    intro p hp
    rw [show tryMatch (q :: qs) text =
        (if q.1.isPrefixOf text then some (q.1, q.2) else tryMatch qs text) from rfl] at h
    by_cases hq : q.1.isPrefixOf text = true
    · rw [if_pos hq] at h
      cases h
    · rw [if_neg hq] at h
      rcases List.mem_cons.mp hp with hp | hp
      · subst hp
        exact Bool.not_eq_true _ |>.mp hq
      · exact ih h p hp

theorem tryMatch_X (rest : List Char) :
    tryMatch OPERATORS ('X' :: rest) =
      if ['O','R'].isPrefixOf rest then some (['X','O','R'], .XOR) else none := by
  simp [OPERATORS, tryMatch, List.isPrefixOf]

theorem find?_operators_none {c : Char} {rest : List Char}
    (h : tryMatch OPERATORS (c :: rest) = none) :
    OPERATORS.find? (fun p => p.1 == (c :: rest.takeWhile Char.isAlphanum)) = none := by
  rw [List.find?_eq_none]
  intro p hp hbeq
  have hname : p.1 = c :: rest.takeWhile Char.isAlphanum := by simpa using hbeq
  have hpn := tryMatch_none_no_prefix h p hp
  rw [hname] at hpn
  have hpre : (c :: rest.takeWhile Char.isAlphanum).isPrefixOf (c :: rest) = true := by
    rw [List.isPrefixOf_iff_prefix, List.cons_prefix_cons]
    exact ⟨rfl, List.takeWhile_prefix _⟩
  rw [hpn] at hpre
  cases hpre

theorem lexGo_x_step (fuel pos : Nat) (rest : List Char)
    (h : tryMatch OPERATORS ('X' :: rest) = none) :
    lexGo (fuel + 1) ('X' :: rest) pos =
      { type := .VAR_X, value := "x", position := pos } :: lexGo fuel rest (pos + 1) := by
  rw [lexGo]
  rw [if_neg (by decide), if_neg (by decide), if_neg (by decide), h]
  rfl

theorem lexGo_setname_step (fuel pos : Nat) (c : Char) (rest : List Char)
    (ha : c.isAlpha = true) (hx : c ≠ 'X')
    (h : tryMatch OPERATORS (c :: rest) = none) :
    lexGo (fuel + 1) (c :: rest) pos =
      { type := .SET_NAME, value := String.mk (c :: rest.takeWhile Char.isAlphanum),
        position := pos } ::
        lexGo fuel (rest.dropWhile Char.isAlphanum)
          (pos + (c :: rest.takeWhile Char.isAlphanum).length) := by
  have hws : ¬ (c.isWhitespace = true) := by
    rw [isAlpha_not_whitespace ha]
    exact Bool.false_ne_true
  rw [lexGo]
  rw [if_neg hws, if_neg (isAlpha_ne_lparen ha), if_neg (isAlpha_ne_rparen ha), h]
  show (if c = 'X' then _ else if c.isAlpha = true then _ else _) = _
  rw [if_neg hx, if_pos ha]
  simp only [find?_operators_none h]

theorem tryMatch_X_none_of_not_alnum (rest : List Char)
    (h : ∀ c2 ∈ rest.head?, c2.isAlphanum = false) :
    tryMatch OPERATORS ('X' :: rest) = none := by
  rw [tryMatch_X]
  cases rest with
  | nil => rw [if_neg (by decide)]
  | cons r rs =>
    have hr := h r rfl
    rw [if_neg]
    intro hp
    simp only [List.isPrefixOf, Bool.and_eq_true, beq_iff_eq] at hp
    rw [← hp.1] at hr
    exact absurd hr (by decide)

/-- Claim C7 (amended): after the operator patterns fail to match at a
position (longest first), a character `X` always lexes as the
free-variable token — regardless of whether further alphanumerics follow,
so an alphanumeric run beginning with `X`, such as `XY`, splits into the
free-variable token followed by the tokens of the remainder — while a
maximal alphanumeric run starting with any other letter lexes as a single
`SET_NAME` token; a run is lexed as an operator exactly when an operator
spelling matches at its start (e.g. `ANDY` lexes as `AND` then `Y`).
A standalone `X` not followed by an alphanumeric always lexes as the
free-variable token (no operator pattern can match there). -/
theorem lexer_x_and_set_name_rules :
    (∀ (fuel pos : Nat) (rest : List Char),
      tryMatch OPERATORS ('X' :: rest) = none →
      lexGo (fuel + 1) ('X' :: rest) pos =
        { type := .VAR_X, value := "x", position := pos } :: lexGo fuel rest (pos + 1))
    ∧ (∀ (fuel pos : Nat) (rest : List Char),
      (∀ c2 ∈ rest.head?, c2.isAlphanum = false) →
      lexGo (fuel + 1) ('X' :: rest) pos =
        { type := .VAR_X, value := "x", position := pos } :: lexGo fuel rest (pos + 1))
    ∧ (∀ (fuel pos : Nat) (c : Char) (rest : List Char),
      c.isAlpha = true → c ≠ 'X' → tryMatch OPERATORS (c :: rest) = none →
      lexGo (fuel + 1) (c :: rest) pos =
        { type := .SET_NAME, value := String.mk (c :: rest.takeWhile Char.isAlphanum),
          position := pos } ::
          lexGo fuel (rest.dropWhile Char.isAlphanum)
            (pos + (c :: rest.takeWhile Char.isAlphanum).length))
    ∧ Lexer.tokenize "XY" =
        [{ type := .VAR_X, value := "x", position := 0 },
         { type := .SET_NAME, value := "Y", position := 1 },
         { type := .EOF, value := "", position := 2 }]
    ∧ Lexer.tokenize "ANDY" =
        [{ type := .AND, value := "AND", position := 0 },
         { type := .SET_NAME, value := "Y", position := 3 },
         { type := .EOF, value := "", position := 4 }]
    ∧ Lexer.tokenize "FOO" =
        [{ type := .SET_NAME, value := "FOO", position := 0 },
         { type := .EOF, value := "", position := 3 }] :=
  ⟨lexGo_x_step,
   fun fuel pos rest h => lexGo_x_step fuel pos rest (tryMatch_X_none_of_not_alnum rest h),
   lexGo_setname_step, by decide, by decide, by decide⟩

/-- Witness for C7 (amended): the general equations instantiated at a
concrete text, hypotheses discharged by evaluation. -/
theorem lexer_x_and_set_name_rules_witness :
    lexGo 3 ['X', '∧'] 0 =
      { type := .VAR_X, value := "x", position := 0 } :: lexGo 2 ['∧'] 1 :=
  lexer_x_and_set_name_rules.1 2 0 ['∧'] (by decide)

/-- Claim C7, counterexample: the claim says an alphanumeric run beginning
with the letter `X`, such as `XY`, is one `SET_NAME` token with value
`XY`; the lexer actually emits the free-variable token for the `X` and a
separate `SET_NAME "Y"`. -/
theorem tokenize_xy_splits :
    (Lexer.tokenize "XY").map Token.type ≠ [TokenType.SET_NAME, TokenType.EOF]
    ∧ Lexer.tokenize "XY" =
      [{ type := .VAR_X, value := "x", position := 0 },
       { type := .SET_NAME, value := "Y", position := 1 },
       { type := .EOF, value := "", position := 2 }] :=
  ⟨by decide, by decide⟩


theorem tryMatch_some_mem {ops : List (List Char × TokenType)} {text : List Char}
    {pat : List Char} {ty : TokenType}
    (h : tryMatch ops text = some (pat, ty)) : (pat, ty) ∈ ops := by
  induction ops with
  | nil => cases h
  | cons q qs ih =>
    rw [show tryMatch (q :: qs) text =
        (if q.1.isPrefixOf text then some (q.1, q.2) else tryMatch qs text) from rfl] at h
    by_cases hq : q.1.isPrefixOf text = true
    · rw [if_pos hq] at h
      cases h
      exact List.mem_cons_self _ _
    · rw [if_neg hq] at h
      exact List.mem_cons_of_mem _ (ih h)

theorem operators_no_eof : ∀ p ∈ OPERATORS, p.2 ≠ TokenType.EOF := by decide

theorem lexGo_eof_structure (fuel : Nat) :
    ∀ (text : List Char) (pos : Nat),
      ∃ ts p, lexGo fuel text pos = ts ++ [{ type := .EOF, value := "", position := p }]
        ∧ ∀ t ∈ ts, t.type ≠ TokenType.EOF := by
  induction fuel with
  | zero =>
    intro text pos
    exact ⟨[], pos, rfl, by simp⟩
  | succ fuel ih =>
    have step : ∀ (tok : Token) (rest' : List Char) (pos' : Nat), tok.type ≠ TokenType.EOF →
        ∃ ts p, tok :: lexGo fuel rest' pos' =
          ts ++ [{ type := .EOF, value := "", position := p }]
          ∧ ∀ t ∈ ts, t.type ≠ TokenType.EOF := by
      intro tok rest' pos' htok
      obtain ⟨ts, p, heq, hne⟩ := ih rest' pos'
      refine ⟨tok :: ts, p, by rw [heq]; rfl, ?_⟩
      intro t ht
      rcases List.mem_cons.mp ht with rfl | ht
      · exact htok
      · exact hne t ht
    intro text pos
    cases text with
    | nil => exact ⟨[], pos, rfl, by simp⟩
    | cons c cs =>
      rw [lexGo]
      by_cases hws : c.isWhitespace = true
      · rw [if_pos hws]
        exact ih cs (pos + 1)
      rw [if_neg hws]
      by_cases hlp : c = '('
      · rw [if_pos hlp]
        exact step _ _ _ (by intro h; cases h)
      rw [if_neg hlp]
      by_cases hrp : c = ')'
      · rw [if_pos hrp]
        exact step _ _ _ (by intro h; cases h)
      rw [if_neg hrp]
      cases htm : tryMatch OPERATORS (c :: cs) with
      | some pt =>
        cases pt with
        | mk pat ty =>
          simp only [htm]
          exact step _ _ _ (operators_no_eof _ (tryMatch_some_mem htm))
      | none =>
        simp only [htm]
        by_cases hx : c = 'X'
        · rw [if_pos hx]
          exact step _ _ _ (by intro h; cases h)
        rw [if_neg hx]
        by_cases ha : c.isAlpha = true
        · rw [if_pos ha]
          cases hfind : OPERATORS.find? (fun p => p.1 == (c :: cs.takeWhile Char.isAlphanum)) with
          | some pt =>
            cases pt with
            | mk pat ty =>
              simp only [hfind]
              exact step _ _ _ (operators_no_eof _ (List.mem_of_find?_eq_some hfind))
          | none =>
            simp only [hfind]
            exact step _ _ _ (by intro h; cases h)
        · rw [if_neg ha]
          exact ih cs (pos + 1)

/-- Claim C9: for every input string, `Lexer.tokenize` terminates and
raises no exception (it is a total function into token lists), and the
returned sequence ends with exactly one `EOF` token: the last element is
an `EOF` token and no earlier token is an `EOF`. -/
theorem tokenize_single_terminal_eof :
    ∀ s : String, ∃ ts p,
      Lexer.tokenize s = ts ++ [{ type := .EOF, value := "", position := p }]
      ∧ ∀ t ∈ ts, t.type ≠ TokenType.EOF :=
  fun _ => lexGo_eof_structure _ _ _

theorem classifyAll_eq_map {f : Int → Option PointRequirement} {c : Int → PointRequirement} :
    ∀ {l : List Int}, (∀ x ∈ l, f x = some (c x)) → classifyAll f l = some (l.map c)
  | [], _ => rfl
  | x :: xs, h => by
    have hx := h x (List.mem_cons_self x xs)
    have hxs := classifyAll_eq_map (f := f) (c := c) (l := xs)
      (fun y hy => h y (List.mem_cons_of_mem x hy))
    simp [classifyAll, hx, hxs]

theorem zip_map_filterMap_eq_filter (c : Int → PointRequirement) (k : PointRequirement) :
    ∀ l : List Int,
      (l.zip (l.map c)).filterMap (fun pr => if pr.2 = k then some pr.1 else none) =
        l.filter (fun x => decide (c x = k))
  | [] => rfl
  | x :: xs => by
    by_cases h : c x = k <;>
      simp [List.zip_cons_cons, List.filterMap_cons, List.filter_cons, h,
        zip_map_filterMap_eq_filter c k xs]

/-- Under a successful classification `c` of the whole universe, `solve`
reduces to the post-classification computation on the four filtered point
lists. -/
theorem solve_eq_of_classified (s : Solver) (c : Int → PointRequirement) (find_max : Bool)
    (h0 : (allPoints s.segments).isEmpty = false)
    (hc : ∀ x ∈ universeList s.segments,
      analyzePoint s.ast s.segments s.targetSet x = some (c x)) :
    s.solve find_max =
      (if !(impossibleOf c s.segments).isEmpty then
        some (-1, none, formatImpossible s.targetSet (impossibleOf c s.segments))
       else
        let rs := if find_max then
            findMaxSegment (mustInOf c s.segments) (mustOutOf c s.segments)
              (canEitherOf c s.segments) (minPoint s.segments) (maxPoint s.segments)
          else findMinSegment (mustInOf c s.segments) (mustOutOf c s.segments)
        some (rs.1, rs.2, formatExplanation s (mustInOf c s.segments)
          (mustOutOf c s.segments) (canEitherOf c s.segments) rs.1 rs.2 find_max)) := by
  unfold Solver.solve mustInOf mustOutOf canEitherOf impossibleOf
  rw [h0]
  simp only [Bool.false_eq_true, if_false, classifyAll_eq_map hc,
    zip_map_filterMap_eq_filter]

theorem mem_intRangeIncl {a b y : Int} : y ∈ intRangeIncl a b ↔ a ≤ y ∧ y ≤ b := by
  unfold intRangeIncl
  rw [List.mem_map]
  constructor
  · rintro ⟨i, hi, rfl⟩
    rw [List.mem_range] at hi
    omega
  · rintro ⟨h1, h2⟩
    refine ⟨(y - a).toNat, ?_, ?_⟩
    · rw [List.mem_range]
      omega
    · omega

theorem solve_min_mode_aux :
    ∀ (s : Solver) (c : Int → PointRequirement),
      (allPoints s.segments).isEmpty = false →
      (∀ x ∈ universeList s.segments,
        analyzePoint s.ast s.segments s.targetSet x = some (c x)) →
      (∀ x ∈ universeList s.segments, c x ≠ .IMPOSSIBLE) →
      ((mustInOf c s.segments = [] → ∃ e, s.solve false = some (0, none, e))
       ∧ (mustInOf c s.segments ≠ [] →
          (((∃ y ∈ mustOutOf c s.segments,
              listMin (mustInOf c s.segments) ≤ y ∧ y ≤ listMax (mustInOf c s.segments)) →
             ∃ e, s.solve false = some (-1, none, e))
           ∧ ((∀ y ∈ mustOutOf c s.segments,
              ¬(listMin (mustInOf c s.segments) ≤ y ∧ y ≤ listMax (mustInOf c s.segments))) →
             ∃ e, s.solve false = some
               (listMax (mustInOf c s.segments) - listMin (mustInOf c s.segments),
                some (Segment.make (listMin (mustInOf c s.segments))
                  (listMax (mustInOf c s.segments))), e))))) := by
  intro s c h0 hc hnoimp
  have himp : impossibleOf c s.segments = [] := by
    unfold impossibleOf
    rw [List.filter_eq_nil_iff]
    intro a ha
    simpa using hnoimp a ha
  have hsolve := solve_eq_of_classified s c false h0 hc
  rw [himp] at hsolve
  simp only [List.isEmpty_nil, Bool.not_true, Bool.false_eq_true, if_false] at hsolve
  constructor
  · intro hmi
    have hfm : findMinSegment (mustInOf c s.segments) (mustOutOf c s.segments) = (0, none) := by
      unfold findMinSegment
      rw [hmi]
      rfl
    rw [hsolve, hfm]
    exact ⟨_, rfl⟩
  · intro hmi
    have hne : (mustInOf c s.segments).isEmpty = false := by
      cases h : (mustInOf c s.segments).isEmpty
      · rfl
      · exact absurd (List.isEmpty_iff.mp h) hmi
    constructor
    · rintro ⟨y, hy, h1, h2⟩
      have hany : ((intRangeIncl (listMin (mustInOf c s.segments))
          (listMax (mustInOf c s.segments))).any
            (fun x => decide (x ∈ mustOutOf c s.segments))) = true :=
        List.any_eq_true.mpr ⟨y, mem_intRangeIncl.mpr ⟨h1, h2⟩, by simpa using hy⟩
      have hfm : findMinSegment (mustInOf c s.segments) (mustOutOf c s.segments) = (-1, none) := by
        unfold findMinSegment
        rw [hne]
        simp only [Bool.false_eq_true, if_false]
        rw [hany]
        rfl
      rw [hsolve, hfm]
      exact ⟨_, rfl⟩
    · intro hall
      have hany : ((intRangeIncl (listMin (mustInOf c s.segments))
          (listMax (mustInOf c s.segments))).any
            (fun x => decide (x ∈ mustOutOf c s.segments))) = false := by
        rw [List.any_eq_false]
        intro x hx
        simp only [decide_eq_true_eq]
        intro hmem
        exact hall x hmem (mem_intRangeIncl.mp hx)
      have hfm : findMinSegment (mustInOf c s.segments) (mustOutOf c s.segments) =
          (listMax (mustInOf c s.segments) - listMin (mustInOf c s.segments),
           some (Segment.make (listMin (mustInOf c s.segments))
             (listMax (mustInOf c s.segments)))) := by
        unfold findMinSegment
        rw [hne]
        simp only [Bool.false_eq_true, if_false]
        rw [hany]
        rfl
      rw [hsolve, hfm]
      exact ⟨_, rfl⟩

/-- Claim C3: in minimum mode, when no analyzed point is `IMPOSSIBLE`: if
there is at least one `MUST_BE_IN` point the returned interval is exactly
`[min(must_in), max(must_in)]` with length `max − min`, unless some
`MUST_BE_OUT` point lies inside that span, in which case the result is
length `−1` with no interval; if there are no `MUST_BE_IN` points the
result is length `0` with no interval.  In particular, for
`(x∈P) → (x∈A)` with `P=[5,10]` and target `A`, every point of `[5,10]`
is `MUST_BE_IN`, every other universe point is `CAN_BE_EITHER`, and the
minimum interval is exactly `[5,10]` with length 5. -/
theorem solve_min_mode_characterization :
    (∀ (s : Solver) (c : Int → PointRequirement),
      (allPoints s.segments).isEmpty = false →
      (∀ x ∈ universeList s.segments,
        analyzePoint s.ast s.segments s.targetSet x = some (c x)) →
      (∀ x ∈ universeList s.segments, c x ≠ .IMPOSSIBLE) →
      ((mustInOf c s.segments = [] → ∃ e, s.solve false = some (0, none, e))
       ∧ (mustInOf c s.segments ≠ [] →
          (((∃ y ∈ mustOutOf c s.segments,
              listMin (mustInOf c s.segments) ≤ y ∧ y ≤ listMax (mustInOf c s.segments)) →
             ∃ e, s.solve false = some (-1, none, e))
           ∧ ((∀ y ∈ mustOutOf c s.segments,
              ¬(listMin (mustInOf c s.segments) ≤ y ∧ y ≤ listMax (mustInOf c s.segments))) →
             ∃ e, s.solve false = some
               (listMax (mustInOf c s.segments) - listMin (mustInOf c s.segments),
                some (Segment.make (listMin (mustInOf c s.segments))
                  (listMax (mustInOf c s.segments))), e))))))
    ∧ parseFormula "(x ∈ P) → (x ∈ A)" = .ok astMinEx
    ∧ (∀ x ∈ universeList solverMinEx.segments,
        analyzePoint solverMinEx.ast solverMinEx.segments solverMinEx.targetSet x =
          some (classMinEx x))
    ∧ (solverMinEx.solve false).map (fun r => (r.1, r.2.1)) = some (5, some ⟨5, 10⟩) :=
  ⟨solve_min_mode_aux, rfl, by decide, by decide⟩

/-- Witness for C3: the general characterization applied to the concrete
minimum-mode example, hypotheses discharged by evaluation. -/
theorem solve_min_mode_characterization_witness :
    ∃ e, solverMinEx.solve false = some
      (listMax (mustInOf classMinEx solverMinEx.segments) -
        listMin (mustInOf classMinEx solverMinEx.segments),
       some (Segment.make (listMin (mustInOf classMinEx solverMinEx.segments))
         (listMax (mustInOf classMinEx solverMinEx.segments))), e) :=
  (((solve_min_mode_characterization.1 solverMinEx classMinEx rfl (by decide)
      (by decide)).2 (by decide)).2) (by decide)

theorem intRangeIncl_single (y : Int) : intRangeIncl y y = [y] := by
  unfold intRangeIncl
  have h : (y + 1 - y).toNat = 1 := by omega
  rw [h, show List.range 1 = [0] from rfl]
  simp

theorem intRangeIncl_snoc {a b : Int} (h : a ≤ b + 1) :
    intRangeIncl a (b + 1) = intRangeIncl a b ++ [b + 1] := by
  unfold intRangeIncl
  have h1 : (b + 1 + 1 - a).toNat = (b + 1 - a).toNat + 1 := by omega
  rw [h1, List.range_succ, List.map_append]
  congr 1
  simp only [List.map_cons, List.map_nil, List.cons.injEq, and_true]
  omega

theorem formatPointsAux_eq_groupRuns (ps : List Int) : ∀ (start endv : Int),
    formatPointsAux start endv ps =
      (groupRunsAux start endv ps).map (fun ab => renderRunStr ab.1 ab.2) := by
  induction ps with
  | nil => intro start endv; rfl
  | cons p ps ih =>
    intro start endv
    rw [formatPointsAux, groupRunsAux]
    by_cases h : p = endv + 1
    · rw [if_pos h, if_pos h, ih]
    · rw [if_neg h, if_neg h, List.map_cons, ih]

theorem groupRunsAux_flatten (ps : List Int) : ∀ (start cur : Int), start ≤ cur →
    (groupRunsAux start cur ps).flatMap (fun ab => intRangeIncl ab.1 ab.2) =
      intRangeIncl start cur ++ ps := by
  induction ps with
  | nil =>
    intro start cur _
    simp [groupRunsAux]
  | cons p ps ih =>
    intro start cur hsc
    rw [groupRunsAux]
    by_cases h : p = cur + 1
    · rw [if_pos h, ih start p (by omega)]
      subst h
      rw [intRangeIncl_snoc (by omega : start ≤ cur + 1)]
      simp
    · rw [if_neg h, List.flatMap_cons, ih p p le_rfl, intRangeIncl_single]
      simp

theorem groupRuns_flatten (l : List Int) :
    (groupRuns l).flatMap (fun ab => intRangeIncl ab.1 ab.2) = l := by
  cases l with
  | nil => rfl
  | cons x xs =>
    rw [groupRuns, groupRunsAux_flatten xs x x le_rfl, intRangeIncl_single]
    rfl

theorem groupRunsAux_le (ps : List Int) : ∀ (start cur : Int), start ≤ cur →
    ∀ ab ∈ groupRunsAux start cur ps, ab.1 ≤ ab.2 := by
  induction ps with
  | nil =>
    intro start cur hsc ab hab
    rw [groupRunsAux, List.mem_singleton] at hab
    subst hab
    exact hsc
  | cons p ps ih =>
    intro start cur hsc ab hab
    rw [groupRunsAux] at hab
    by_cases h : p = cur + 1
    · rw [if_pos h] at hab
      exact ih start p (by omega) ab hab
    · rw [if_neg h] at hab
      rcases List.mem_cons.mp hab with rfl | hab
      · exact hsc
      · exact ih p p le_rfl ab hab

theorem groupRuns_le (l : List Int) : ∀ ab ∈ groupRuns l, ab.1 ≤ ab.2 := by
  cases l with
  | nil => intro ab hab; cases hab
  | cons x xs => exact groupRunsAux_le xs x x le_rfl

theorem formatPoints_eq_runLength (l : List Int) (h : l ≠ []) :
    formatPoints l = String.intercalate ", "
      ((groupRuns (sortInts l)).map (fun ab => renderRunStr ab.1 ab.2)) := by
  unfold formatPoints
  cases hs : sortInts l with
  | nil =>
    exfalso
    have := List.perm_insertionSort (fun a b : Int => a ≤ b) l
    rw [show l.insertionSort (fun a b => a ≤ b) = sortInts l from rfl, hs] at this
    exact h (List.Perm.eq_nil this.symm)
  | cons p ps =>
    show String.intercalate ", " (formatPointsAux p p ps) = _
    rw [groupRuns, formatPointsAux_eq_groupRuns]

/-- Claim C4: if any universe point classifies `IMPOSSIBLE`, `solve`
returns length `−1`, no interval, and an explanation reporting the
offending points through `_format_points`, whose output is the compressed
run-length rendering: the sorted points are grouped into maximal runs
(they flatten back to the sorted list), each run `[a..b]` is collapsed
(singletons literal, see `renderRunStr`), joined by commas.
Unsatisfiability is a normal return value (`some`), not an exception. -/
theorem solve_impossible_reports_failure :
    (∀ (s : Solver) (c : Int → PointRequirement) (find_max : Bool),
      (allPoints s.segments).isEmpty = false →
      (∀ x ∈ universeList s.segments,
        analyzePoint s.ast s.segments s.targetSet x = some (c x)) →
      impossibleOf c s.segments ≠ [] →
      s.solve find_max =
        some (-1, none, formatImpossible s.targetSet (impossibleOf c s.segments)))
    ∧ (∀ l : List Int, l ≠ [] →
        formatPoints l = String.intercalate ", "
          ((groupRuns (sortInts l)).map (fun ab => renderRunStr ab.1 ab.2)))
    ∧ (∀ l : List Int, (groupRuns l).flatMap (fun ab => intRangeIncl ab.1 ab.2) = l)
    ∧ (∀ l : List Int, ∀ ab ∈ groupRuns l, ab.1 ≤ ab.2) := by
  refine ⟨?_, formatPoints_eq_runLength, groupRuns_flatten, groupRuns_le⟩
  intro s c find_max h0 hc hne
  rw [solve_eq_of_classified s c find_max h0 hc]
  have himp : (impossibleOf c s.segments).isEmpty = false := by
    cases h : (impossibleOf c s.segments).isEmpty
    · rfl
    · exact absurd (List.isEmpty_iff.mp h) hne
  rw [himp]
  rfl

/-- Witness for C4: the unsatisfiable instance `(x∈P)∧(x∈A)∧¬(x∈A)` with
`P=[5,10]`, where every universe point is `IMPOSSIBLE`. -/
theorem solve_impossible_reports_failure_witness :
    solverUnsat.solve true =
      some (-1, none, formatImpossible solverUnsat.targetSet
        (impossibleOf (fun _ => .IMPOSSIBLE) solverUnsat.segments)) :=
  solve_impossible_reports_failure.1 solverUnsat (fun _ => .IMPOSSIBLE) true rfl
    (by decide) (by decide)

theorem mem_dedupInts {l : List Int} {x : Int} : x ∈ dedupInts l ↔ x ∈ l := by
  induction l with
  | nil => rfl
  | cons y ys ih =>
    rw [dedupInts]
    by_cases h : y ∈ ys
    · rw [if_pos h, ih]
      constructor
      · exact fun hx => List.mem_cons_of_mem y hx
      · intro hx
        rcases List.mem_cons.mp hx with rfl | hx
        · exact h
        · exact hx
    · rw [if_neg h]
      simp [ih]

theorem nodup_dedupInts (l : List Int) : (dedupInts l).Nodup := by
  induction l with
  | nil => exact List.nodup_nil
  | cons y ys ih =>
    rw [dedupInts]
    by_cases h : y ∈ ys
    · rw [if_pos h]
      exact ih
    · rw [if_neg h]
      exact List.Nodup.cons (fun hy => h (mem_dedupInts.mp hy)) ih

theorem mem_sortInts {l : List Int} {x : Int} : x ∈ sortInts l ↔ x ∈ l :=
  (List.perm_insertionSort _ l).mem_iff

theorem sortInts_sorted (l : List Int) : List.Sorted (· ≤ ·) (sortInts l) :=
  List.sorted_insertionSort _ l

theorem sortInts_nodup {l : List Int} (h : l.Nodup) : (sortInts l).Nodup :=
  (List.perm_insertionSort _ l).nodup_iff.mpr h

theorem sorted_lt_of_le_nodup {l : List Int}
    (hs : List.Sorted (· ≤ ·) l) (hn : l.Nodup) : List.Sorted (· < ·) l :=
  (hs.and hn).imp (fun h => lt_of_le_of_ne h.1 h.2)

theorem sortedSet_sorted_lt (l : List Int) : List.Sorted (· < ·) (sortedSet l) :=
  sorted_lt_of_le_nodup (sortInts_sorted _) (sortInts_nodup (nodup_dedupInts l))

theorem mem_sortedSet {l : List Int} {x : Int} : x ∈ sortedSet l ↔ x ∈ l :=
  mem_sortInts.trans mem_dedupInts

theorem sorted_lt_ext : ∀ {l1 l2 : List Int}, List.Sorted (· < ·) l1 →
    List.Sorted (· < ·) l2 → (∀ x, x ∈ l1 ↔ x ∈ l2) → l1 = l2 := by
  intro l1
  induction l1 with
  | nil =>
    intro l2 _ _ hm
    cases l2 with
    | nil => rfl
    | cons y ys => exact absurd ((hm y).mpr (List.mem_cons_self y ys)) (List.not_mem_nil y)
  | cons x xs ih =>
    intro l2 h1 h2 hm
    cases l2 with
    | nil => exact absurd ((hm x).mp (List.mem_cons_self x xs)) (List.not_mem_nil x)
    | cons y ys =>
      obtain ⟨h1head, h1tail⟩ := List.sorted_cons.mp h1
      obtain ⟨h2head, h2tail⟩ := List.sorted_cons.mp h2
      have hxy : x = y := by
        have hx2 := (hm x).mp (List.mem_cons_self x xs)
        have hy1 := (hm y).mpr (List.mem_cons_self y ys)
        rcases List.mem_cons.mp hx2 with h | h
        · exact h
        · rcases List.mem_cons.mp hy1 with h' | h'
          · exact h'.symm
          · have := h2head x h
            have := h1head y h'
            omega
      subst hxy
      congr 1
      refine ih h1tail h2tail (fun z => ⟨fun hz => ?_, fun hz => ?_⟩)
      · have hne : z ≠ x := fun e => by
          have := h1head z hz
          omega
        rcases List.mem_cons.mp ((hm z).mp (List.mem_cons_of_mem x hz)) with h | h
        · exact absurd h hne
        · exact h
      · have hne : z ≠ x := fun e => by
          have := h2head z hz
          omega
        rcases List.mem_cons.mp ((hm z).mpr (List.mem_cons_of_mem x hz)) with h | h
        · exact absurd h hne
        · exact h

theorem intRangeIncl_sorted_lt (a b : Int) : List.Sorted (· < ·) (intRangeIncl a b) := by
  unfold intRangeIncl
  rw [List.Sorted, List.pairwise_map]
  exact (List.pairwise_lt_range _).imp (fun h => by omega)

theorem universeList_sorted_lt (segs : SegMap) : List.Sorted (· < ·) (universeList segs) :=
  intRangeIncl_sorted_lt _ _

theorem sorted_lt_filter {l : List Int} (p : Int → Bool)
    (h : List.Sorted (· < ·) l) : List.Sorted (· < ·) (l.filter p) :=
  List.Pairwise.filter p h

theorem sorted_lt_nodup {l : List Int} (h : List.Sorted (· < ·) l) : l.Nodup :=
  h.imp ne_of_lt

theorem mem_mustInOf {c : Int → PointRequirement} {segs : SegMap} {x : Int} :
    x ∈ mustInOf c segs ↔ x ∈ universeList segs ∧ c x = .MUST_BE_IN := by
  simp [mustInOf, List.mem_filter]

theorem mem_mustOutOf {c : Int → PointRequirement} {segs : SegMap} {x : Int} :
    x ∈ mustOutOf c segs ↔ x ∈ universeList segs ∧ c x = .MUST_BE_OUT := by
  simp [mustOutOf, List.mem_filter]

theorem mem_canEitherOf {c : Int → PointRequirement} {segs : SegMap} {x : Int} :
    x ∈ canEitherOf c segs ↔ x ∈ universeList segs ∧ c x = .CAN_BE_EITHER := by
  simp [canEitherOf, List.mem_filter]

theorem mem_availList {c : Int → PointRequirement} {univ : List Int} {x : Int} :
    x ∈ availList c univ ↔
      x ∈ univ ∧ (c x = .MUST_BE_IN ∨ c x = .CAN_BE_EITHER) := by
  simp [availList, List.mem_filter]

theorem availList_sorted_lt (c : Int → PointRequirement) (segs : SegMap) :
    List.Sorted (· < ·) (availList c (universeList segs)) :=
  sorted_lt_filter _ (universeList_sorted_lt segs)

theorem sortedSet_filters_eq_avail (c : Int → PointRequirement) (segs : SegMap) :
    sortedSet (mustInOf c segs ++ canEitherOf c segs) =
      availList c (universeList segs) := by
  refine sorted_lt_ext (sortedSet_sorted_lt _) (availList_sorted_lt c segs) (fun x => ?_)
  rw [mem_sortedSet, List.mem_append, mem_mustInOf, mem_canEitherOf, mem_availList]
  constructor
  · rintro (⟨hu, hk⟩ | ⟨hu, hk⟩)
    · exact ⟨hu, Or.inl hk⟩
    · exact ⟨hu, Or.inr hk⟩
  · rintro ⟨hu, hk | hk⟩
    · exact Or.inl ⟨hu, hk⟩
    · exact Or.inr ⟨hu, hk⟩

theorem filter_gt_length_lt {l : List Int} {z : Int} (hz : z ∈ l) :
    (l.filter (fun y => decide (z < y))).length < l.length := by
  induction l with
  | nil => cases hz
  | cons u us ih =>
    rw [List.filter_cons]
    by_cases h : z < u
    · have hzu : z ∈ us := by
        rcases List.mem_cons.mp hz with rfl | hm
        · omega
        · exact hm
      rw [if_pos (decide_eq_true h)]
      have := ih hzu
      simp only [List.length_cons]
      omega
    · rw [if_neg (by rw [decide_eq_false h]; exact Bool.false_ne_true)]
      have := List.length_filter_le (fun y => decide (z < y)) us
      simp only [List.length_cons]
      omega

theorem filter_mono_length (us : List Int) (z : Int) :
    (us.filter (fun y => decide (z + 1 < y))).length ≤
      (us.filter (fun y => decide (z < y))).length := by
  rw [← List.countP_eq_length_filter, ← List.countP_eq_length_filter]
  refine List.countP_mono_left (fun a _ h => ?_)
  simp only [decide_eq_true_eq] at h ⊢
  omega

theorem filter_succ_length_lt {l : List Int} {z : Int} (hn : l.Nodup)
    (hz : z + 1 ∈ l) :
    (l.filter (fun y => decide (z + 1 < y))).length <
      (l.filter (fun y => decide (z < y))).length := by
  induction l with
  | nil => cases hz
  | cons u us ih =>
    rw [List.filter_cons, List.filter_cons]
    obtain ⟨_, hus⟩ := List.nodup_cons.mp hn
    by_cases he : u = z + 1
    · subst he
      rw [if_neg (by rw [decide_eq_false (lt_irrefl (z + 1))]; exact Bool.false_ne_true),
        if_pos (decide_eq_true (by omega : z < z + 1))]
      have := filter_mono_length us z
      simp only [List.length_cons]
      omega
    · have hzus : z + 1 ∈ us := by
        rcases List.mem_cons.mp hz with h | h
        · exact absurd h.symm he
        · exact h
      have hlt := ih hus hzus
      by_cases h1 : z + 1 < u
      · rw [if_pos (decide_eq_true h1), if_pos (decide_eq_true (by omega : z < u))]
        simp only [List.length_cons]
        omega
      · rw [if_neg (by rw [decide_eq_false h1]; exact Bool.false_ne_true)]
        by_cases h2 : z < u
        · rw [if_pos (decide_eq_true h2)]
          simp only [List.length_cons]
          omega
        · rw [if_neg (by rw [decide_eq_false h2]; exact Bool.false_ne_true)]
          omega

theorem extendRight_eq_run_end (points MO : List Int) (hnodup : points.Nodup)
    (hd : ∀ y ∈ points, y ∉ MO) {b : Int} (hb : (b + 1) ∉ points) :
    ∀ (fuel : Nat) (left : Int),
      (points.filter (fun y => decide (left < y))).length < fuel →
      left ≤ b →
      (∀ y : Int, left < y → y ≤ b → y ∈ points) →
      extendRight points MO fuel left = b := by
  intro fuel
  induction fuel with
  | zero =>
    intro left hf
    exact absurd hf (Nat.not_lt_zero _)
  | succ fuel ih =>
    intro left hf hlb hrun
    rw [extendRight]
    by_cases hstep : (left + 1) ∈ points ∧ (left + 1) ∉ MO
    · rw [if_pos hstep]
      have hlt : left < b := by
        rcases lt_or_eq_of_le hlb with h | h
        · exact h
        · subst h
          exact absurd hstep.1 hb
      apply ih
      · have := filter_succ_length_lt hnodup hstep.1
        omega
      · omega
      · intro y h1 h2
        exact hrun y (by omega) h2
    · rw [if_neg hstep]
      by_contra hne
      have hlt : left < b := by
        rcases lt_or_eq_of_le hlb with h | h
        · exact h
        · exact absurd h hne
      have hmem : (left + 1) ∈ points := hrun (left + 1) (by omega) (by omega)
      exact hstep ⟨hmem, hd _ hmem⟩

theorem intRangeIncl_cons {a b : Int} (h : a ≤ b) :
    intRangeIncl a b = a :: intRangeIncl (a + 1) b := by
  unfold intRangeIncl
  have h1 : (b + 1 - a).toNat = (b + 1 - (a + 1)).toNat + 1 := by omega
  rw [h1, List.range_succ_eq_map, List.map_cons, List.map_map]
  congr 1
  · simp
  · refine List.map_congr_left (fun i _ => ?_)
    simp only [Function.comp_apply]
    push_cast
    ring

theorem maxStep_at_run_point (points MO : List Int) (hnodup : points.Nodup)
    (hd : ∀ y ∈ points, y ∉ MO) {a b : Int}
    (hb : (b + 1) ∉ points) (hrun : ∀ y : Int, a ≤ y → y ≤ b → y ∈ points)
    (best : Int × Option Segment) (left : Int) (h1 : a ≤ left) (h2 : left ≤ b) :
    maxStep points MO best left =
      if b - left > best.1 then (b - left, some (Segment.make left b)) else best := by
  unfold maxStep
  have hext : extendRight points MO points.length left = b := by
    refine extendRight_eq_run_end points MO hnodup hd hb points.length left ?_ h2 ?_
    · exact filter_gt_length_lt (hrun left h1 h2)
    · intro y hy1 hy2
      exact hrun y (by omega) hy2
  rw [hext]
  by_cases hcmp : b - left > best.1
  · rw [if_pos hcmp, if_pos hcmp]
    have hany : (MO.any (fun p => decide (left ≤ p) && decide (p ≤ b))) = false := by
      rw [List.any_eq_false]
      intro p hp
      rw [Bool.and_eq_true, decide_eq_true_eq, decide_eq_true_eq]
      rintro ⟨hp1, hp2⟩
      exact hd p (hrun p (by omega) hp2) hp
    rw [hany]
    simp
  · rw [if_neg hcmp, if_neg hcmp]

theorem foldl_maxStep_no_update (points MO : List Int) (hnodup : points.Nodup)
    (hd : ∀ y ∈ points, y ∉ MO) {a b : Int}
    (hb : (b + 1) ∉ points) (hrun : ∀ y : Int, a ≤ y → y ≤ b → y ∈ points) :
    ∀ (L : List Int) (best : Int × Option Segment),
      (∀ l ∈ L, a < l ∧ l ≤ b) → b - a ≤ best.1 →
      L.foldl (maxStep points MO) best = best := by
  intro L
  induction L with
  | nil => intro best _ _; rfl
  | cons l ls ih =>
    intro best hmem hba
    obtain ⟨hl1, hl2⟩ := hmem l (List.mem_cons_self l ls)
    rw [List.foldl_cons,
      maxStep_at_run_point points MO hnodup hd hb hrun best l (by omega) hl2,
      if_neg (by omega)]
    exact ih best (fun z hz => hmem z (List.mem_cons_of_mem l hz)) hba

theorem foldl_maxStep_run (points MO : List Int) (hnodup : points.Nodup)
    (hd : ∀ y ∈ points, y ∉ MO) {a b : Int} (hab : a ≤ b)
    (hb : (b + 1) ∉ points) (hrun : ∀ y : Int, a ≤ y → y ≤ b → y ∈ points)
    (best : Int × Option Segment) :
    (intRangeIncl a b).foldl (maxStep points MO) best =
      if b - a > best.1 then (b - a, some (Segment.make a b)) else best := by
  rw [intRangeIncl_cons hab, List.foldl_cons,
    maxStep_at_run_point points MO hnodup hd hb hrun best a le_rfl hab]
  by_cases hcmp : b - a > best.1
  · rw [if_pos hcmp]
    refine foldl_maxStep_no_update points MO hnodup hd hb hrun _ _ ?_ (by simp)
    intro l hl
    have := mem_intRangeIncl.mp hl
    omega
  · rw [if_neg hcmp]
    refine foldl_maxStep_no_update points MO hnodup hd hb hrun _ _ ?_ (by omega)
    intro l hl
    have := mem_intRangeIncl.mp hl
    omega

theorem groupRunsAux_bound_succ :
    ∀ (xs : List Int) (start cur : Int), start ≤ cur →
      List.Sorted (· < ·) (cur :: xs) →
      ∀ ab ∈ groupRunsAux start cur xs,
        cur ≤ ab.2 ∧ (ab.2 + 1) ∉ intRangeIncl start cur ∧ (ab.2 + 1) ∉ xs := by
  intro xs
  induction xs with
  | nil =>
    intro start cur hsc _ ab hab
    rw [groupRunsAux, List.mem_singleton] at hab
    subst hab
    refine ⟨le_rfl, fun hmem => ?_, List.not_mem_nil _⟩
    have := mem_intRangeIncl.mp hmem
    omega
  | cons y ys ih =>
    intro start cur hsc hsorted ab hab
    obtain ⟨hhead, htail⟩ := List.sorted_cons.mp hsorted
    have hcy : cur < y := hhead y (List.mem_cons_self y ys)
    have htys : ∀ z ∈ ys, y < z := (List.sorted_cons.mp htail).1
    rw [groupRunsAux] at hab
    by_cases h : y = cur + 1
    · rw [if_pos h] at hab
      obtain ⟨hy2, hnr, hnys⟩ := ih start y (by omega) htail ab hab
      refine ⟨by omega, fun hmem => ?_, fun hmem => ?_⟩
      · have h1 := mem_intRangeIncl.mp hmem
        exact hnr (mem_intRangeIncl.mpr (by omega))
      · rcases List.mem_cons.mp hmem with he | hmem
        · exact hnr (by rw [he]; exact mem_intRangeIncl.mpr (by omega))
        · exact hnys hmem
    · rw [if_neg h] at hab
      rcases List.mem_cons.mp hab with rfl | hab
      · refine ⟨le_rfl, fun hmem => ?_, fun hmem => ?_⟩
        · have := mem_intRangeIncl.mp hmem
          omega
        · rcases List.mem_cons.mp hmem with he | hmem
          · omega
          · have := htys _ hmem
            omega
      · obtain ⟨hy2, hnr, hnys⟩ := ih y y le_rfl htail ab hab
        refine ⟨by omega, fun hmem => ?_, fun hmem => ?_⟩
        · have := mem_intRangeIncl.mp hmem
          omega
        · rcases List.mem_cons.mp hmem with he | hmem
          · omega
          · exact hnys hmem

theorem groupRuns_succ_not_mem {l : List Int} (hs : List.Sorted (· < ·) l) :
    ∀ ab ∈ groupRuns l, (ab.2 + 1) ∉ l := by
  cases l with
  | nil => intro ab hab; cases hab
  | cons x xs =>
    intro ab hab hmem
    obtain ⟨_, hnr, hnxs⟩ := groupRunsAux_bound_succ xs x x le_rfl hs ab hab
    rcases List.mem_cons.mp hmem with he | hmem
    · exact hnr (by rw [he]; exact mem_intRangeIncl.mpr (by omega))
    · exact hnxs hmem

theorem run_subset_of_groupRuns {l : List Int} {ab : Int × Int}
    (hab : ab ∈ groupRuns l) : ∀ y : Int, ab.1 ≤ y → y ≤ ab.2 → y ∈ l := by
  intro y h1 h2
  have : y ∈ (groupRuns l).flatMap (fun ab => intRangeIncl ab.1 ab.2) :=
    List.mem_flatMap.mpr ⟨ab, hab, mem_intRangeIncl.mpr ⟨h1, h2⟩⟩
  rwa [groupRuns_flatten] at this

theorem foldl_maxStep_flatten (points MO : List Int) (hnodup : points.Nodup)
    (hd : ∀ y ∈ points, y ∉ MO) :
    ∀ (runs : List (Int × Int)) (best : Int × Option Segment),
      (∀ ab ∈ runs, ab.1 ≤ ab.2 ∧ ((ab.2 + 1) ∉ points) ∧
        (∀ y : Int, ab.1 ≤ y → y ≤ ab.2 → y ∈ points)) →
      (runs.flatMap (fun ab => intRangeIncl ab.1 ab.2)).foldl (maxStep points MO) best =
        runs.foldl specStep best := by
  intro runs
  induction runs with
  | nil => intro best _; rfl
  | cons r rs ih =>
    intro best hprops
    obtain ⟨hab, hsucc, hsub⟩ := hprops r (List.mem_cons_self r rs)
    rw [List.flatMap_cons, List.foldl_append, List.foldl_cons,
      foldl_maxStep_run points MO hnodup hd hab hsucc hsub best]
    rw [show specStep best r =
      (if r.2 - r.1 > best.1 then (r.2 - r.1, some (Segment.make r.1 r.2)) else best) from rfl]
    exact ih _ (fun z hz => hprops z (List.mem_cons_of_mem r hz))

theorem foldl_maxStep_points (points MO : List Int)
    (hsorted : List.Sorted (· < ·) points) (hd : ∀ y ∈ points, y ∉ MO) :
    points.foldl (maxStep points MO) ((0 : Int), (none : Option Segment)) =
      specBestRun (groupRuns points) := by
  have hnodup := sorted_lt_nodup hsorted
  nth_rewrite 2 [← groupRuns_flatten points]
  rw [foldl_maxStep_flatten points MO hnodup hd (groupRuns points)
    ((0 : Int), (none : Option Segment))
    (fun ab hab => ⟨groupRuns_le points ab hab, groupRuns_succ_not_mem hsorted ab hab,
      run_subset_of_groupRuns hab⟩)]
  rfl

theorem specStep_fst_le (best : Int × Option Segment) (ab : Int × Int) :
    best.1 ≤ (specStep best ab).1 := by
  unfold specStep
  by_cases h : ab.2 - ab.1 > best.1
  · rw [if_pos h]
    omega
  · rw [if_neg h]

theorem foldl_specStep_fst_le :
    ∀ (runs : List (Int × Int)) (best : Int × Option Segment),
      best.1 ≤ (runs.foldl specStep best).1 := by
  intro runs
  induction runs with
  | nil => intro best; exact le_rfl
  | cons r rs ih =>
    intro best
    rw [List.foldl_cons]
    exact le_trans (specStep_fst_le best r) (ih (specStep best r))

theorem foldl_specStep_run_le :
    ∀ (runs : List (Int × Int)) (best : Int × Option Segment),
      ∀ ab ∈ runs, ab.2 - ab.1 ≤ (runs.foldl specStep best).1 := by
  intro runs
  induction runs with
  | nil => intro best ab hab; cases hab
  | cons r rs ih =>
    intro best ab hab
    rw [List.foldl_cons]
    rcases List.mem_cons.mp hab with rfl | hab
    · refine le_trans ?_ (foldl_specStep_fst_le rs (specStep best ab))
      unfold specStep
      by_cases h : ab.2 - ab.1 > best.1
      · rw [if_pos h]
      · rw [if_neg h]
        omega
    · exact ih (specStep best r) ab hab

theorem sorted_zip_adjacent {bs : List Int} (hs : List.Sorted (· < ·) bs) :
    ∀ p ∈ bs.zip bs.tail,
      p.1 ∈ bs ∧ p.2 ∈ bs ∧ p.1 < p.2 ∧ ∀ m ∈ bs, ¬(p.1 < m ∧ m < p.2) := by
  induction bs with
  | nil => intro p hp; cases hp
  | cons u us ih =>
    intro p hp
    cases us with
    | nil => cases hp
    | cons v vs =>
      obtain ⟨hhead, htail⟩ := List.sorted_cons.mp hs
      rcases List.mem_cons.mp hp with rfl | hp
      · refine ⟨List.mem_cons_self _ _, List.mem_cons_of_mem _ (List.mem_cons_self _ _),
          hhead v (List.mem_cons_self _ _), ?_⟩
        intro m hm
        rcases List.mem_cons.mp hm with rfl | hm
        · omega
        · rcases List.mem_cons.mp hm with rfl | hm
          · omega
          · have := (List.sorted_cons.mp htail).1 m hm
            omega
      · obtain ⟨h1, h2, h3, h4⟩ := ih htail p hp
        refine ⟨List.mem_cons_of_mem _ h1, List.mem_cons_of_mem _ h2, h3, ?_⟩
        intro m hm
        rcases List.mem_cons.mp hm with rfl | hm
        · have := hhead _ h1
          omega
        · exact h4 m hm

theorem foldl_gapStep_no_update :
    ∀ (pairs : List (Int × Int)) (best : Int × Option Segment),
      (∀ p ∈ pairs, p.1 + 1 > p.2 - 1 ∨ p.2 - 1 - (p.1 + 1) ≤ best.1) →
      pairs.foldl gapStep best = best := by
  intro pairs
  induction pairs with
  | nil => intro best _; rfl
  | cons p ps ih =>
    intro best hp
    rw [List.foldl_cons]
    have hstep : gapStep best p = best := by
      unfold gapStep
      rcases hp p (List.mem_cons_self p ps) with h | h
      · rw [if_pos h]
      · by_cases he : p.1 + 1 > p.2 - 1
        · rw [if_pos he]
        · rw [if_neg he, if_neg (by omega)]
    rw [hstep]
    exact ih best (fun q hq => hp q (List.mem_cons_of_mem p hq))

theorem findMaxSegment_eq_specBestRun (c : Int → PointRequirement) (segs : SegMap)
    (hnoimp : ∀ x ∈ universeList segs, c x ≠ .IMPOSSIBLE) :
    findMaxSegment (mustInOf c segs) (mustOutOf c segs) (canEitherOf c segs)
      (minPoint segs) (maxPoint segs) =
      specBestRun (groupRuns (availList c (universeList segs))) := by
  have hpts_eq : sortedSet (mustInOf c segs ++ canEitherOf c segs) =
      availList c (universeList segs) := sortedSet_filters_eq_avail c segs
  unfold findMaxSegment
  by_cases hempty : ((mustInOf c segs).isEmpty && (canEitherOf c segs).isEmpty) = true
  · rw [if_pos hempty]
    rw [Bool.and_eq_true] at hempty
    have hMI := List.isEmpty_iff.mp hempty.1
    have hCE := List.isEmpty_iff.mp hempty.2
    have havail : availList c (universeList segs) = [] := by
      rw [List.eq_nil_iff_forall_not_mem]
      intro x hx
      obtain ⟨hu, hk⟩ := mem_availList.mp hx
      rcases hk with hk | hk
      · have : x ∈ mustInOf c segs := mem_mustInOf.mpr ⟨hu, hk⟩
        rw [hMI] at this
        exact List.not_mem_nil x this
      · have : x ∈ canEitherOf c segs := mem_canEitherOf.mpr ⟨hu, hk⟩
        rw [hCE] at this
        exact List.not_mem_nil x this
    rw [havail]
    rfl
  · rw [if_neg hempty]
    have hne : sortedSet (mustInOf c segs ++ canEitherOf c segs) ≠ [] := by
      intro h0
      apply hempty
      rw [Bool.and_eq_true]
      constructor
      · rw [List.isEmpty_iff, List.eq_nil_iff_forall_not_mem]
        intro x hx
        have : x ∈ sortedSet (mustInOf c segs ++ canEitherOf c segs) :=
          mem_sortedSet.mpr (List.mem_append_left _ hx)
        rw [h0] at this
        exact List.not_mem_nil x this
      · rw [List.isEmpty_iff, List.eq_nil_iff_forall_not_mem]
        intro x hx
        have : x ∈ sortedSet (mustInOf c segs ++ canEitherOf c segs) :=
          mem_sortedSet.mpr (List.mem_append_right _ hx)
        rw [h0] at this
        exact List.not_mem_nil x this
    have hnemp : (sortedSet (mustInOf c segs ++ canEitherOf c segs)).isEmpty = false := by
      cases h : (sortedSet (mustInOf c segs ++ canEitherOf c segs)).isEmpty
      · rfl
      · exact absurd (List.isEmpty_iff.mp h) hne
    simp only [hnemp, Bool.false_eq_true, if_false]
    have hsorted : List.Sorted (· < ·)
        (sortedSet (mustInOf c segs ++ canEitherOf c segs)) := sortedSet_sorted_lt _
    have hd : ∀ y ∈ sortedSet (mustInOf c segs ++ canEitherOf c segs),
        y ∉ mustOutOf c segs := by
      intro y hy hymo
      obtain ⟨hu, hk⟩ := mem_availList.mp (hpts_eq ▸ hy)
      have h2 := (mem_mustOutOf.mp hymo).2
      rcases hk with hk | hk <;> rw [hk] at h2 <;> cases h2
    rw [foldl_maxStep_points _ _ hsorted hd]
    have hminmax : minPoint segs ≤ maxPoint segs := by
      obtain ⟨x, hx⟩ := List.exists_mem_of_ne_nil _ hne
      have hxa := mem_availList.mp (hpts_eq ▸ hx)
      have := mem_intRangeIncl.mp hxa.1
      omega
    have hMObound : ∀ m ∈ sortedSet (mustOutOf c segs),
        minPoint segs ≤ m ∧ m ≤ maxPoint segs := by
      intro m hm
      exact mem_intRangeIncl.mp (mem_mustOutOf.mp (mem_sortedSet.mp hm)).1
    have hbsorted : List.Sorted (· < ·)
        ((minPoint segs - 1) :: sortedSet (mustOutOf c segs) ++ [maxPoint segs + 1]) := by
      rw [show ((minPoint segs - 1) :: sortedSet (mustOutOf c segs) ++ [maxPoint segs + 1]) =
        (minPoint segs - 1) :: (sortedSet (mustOutOf c segs) ++ [maxPoint segs + 1]) from rfl]
      rw [List.sorted_cons]
      constructor
      · intro m hm
        rcases List.mem_append.mp hm with hm | hm
        · have := hMObound m hm
          omega
        · rw [List.mem_singleton] at hm
          omega
      · rw [List.Sorted, List.pairwise_append]
        refine ⟨sortedSet_sorted_lt _, List.pairwise_singleton _ _, ?_⟩
        intro m hm b hb
        rw [List.mem_singleton] at hb
        subst hb
        have := hMObound m hm
        omega
    rw [hpts_eq]
    refine foldl_gapStep_no_update _ _ (fun pair hpair => ?_)
    obtain ⟨hp1mem, hp2mem, hplt, hpbetween⟩ := sorted_zip_adjacent hbsorted pair hpair
    by_cases hgap : pair.1 + 1 > pair.2 - 1
    · exact Or.inl hgap
    · refine Or.inr ?_
      have hbar_ge : ∀ m ∈ ((minPoint segs - 1) :: sortedSet (mustOutOf c segs) ++
          [maxPoint segs + 1]), minPoint segs - 1 ≤ m := by
        intro m hm
        rcases List.mem_cons.mp hm with rfl | hm
        · omega
        · rcases List.mem_append.mp hm with hm | hm
          · have := hMObound m hm
            omega
          · rw [List.mem_singleton] at hm
            omega
      have hbar_le : ∀ m ∈ ((minPoint segs - 1) :: sortedSet (mustOutOf c segs) ++
          [maxPoint segs + 1]), m ≤ maxPoint segs + 1 := by
        intro m hm
        rcases List.mem_cons.mp hm with rfl | hm
        · omega
        · rcases List.mem_append.mp hm with hm | hm
          · have := hMObound m hm
            omega
          · rw [List.mem_singleton] at hm
            omega
      have hgap_sub : ∀ y : Int, pair.1 + 1 ≤ y → y ≤ pair.2 - 1 →
          y ∈ sortedSet (mustInOf c segs ++ canEitherOf c segs) := by
        intro y hy1 hy2
        have hylo := hbar_ge pair.1 hp1mem
        have hyhi := hbar_le pair.2 hp2mem
        have hyuniv : y ∈ universeList segs := mem_intRangeIncl.mpr (by omega)
        have hynotmo : y ∉ mustOutOf c segs := by
          intro hymo
          have : y ∈ ((minPoint segs - 1) :: sortedSet (mustOutOf c segs) ++
              [maxPoint segs + 1]) :=
            List.mem_cons_of_mem _ (List.mem_append_left _ (mem_sortedSet.mpr hymo))
          exact hpbetween y this ⟨by omega, by omega⟩
        rw [hpts_eq]
        refine mem_availList.mpr ⟨hyuniv, ?_⟩
        have h1 := hnoimp y hyuniv
        cases hcy : c y
        · exact Or.inl rfl
        · exact absurd (mem_mustOutOf.mpr ⟨hyuniv, hcy⟩) hynotmo
        · exact Or.inr rfl
        · exact absurd hcy h1
      have humem : pair.1 + 1 ∈ sortedSet (mustInOf c segs ++ canEitherOf c segs) :=
        hgap_sub (pair.1 + 1) le_rfl (by omega)
      have hflat := groupRuns_flatten (sortedSet (mustInOf c segs ++ canEitherOf c segs))
      rw [← hflat] at humem
      obtain ⟨ab, hab, hmem⟩ := List.mem_flatMap.mp humem
      obtain ⟨ha1, ha2⟩ := mem_intRangeIncl.mp hmem
      have hvle : pair.2 - 1 ≤ ab.2 := by
        by_contra hv
        have : ab.2 + 1 ∈ sortedSet (mustInOf c segs ++ canEitherOf c segs) :=
          hgap_sub (ab.2 + 1) (by omega) (by omega)
        exact groupRuns_succ_not_mem hsorted ab hab this
      have hrun_le := foldl_specStep_run_le
        (groupRuns (sortedSet (mustInOf c segs ++ canEitherOf c segs)))
        ((0 : Int), (none : Option Segment)) ab hab
      rw [hpts_eq] at hrun_le
      unfold specBestRun
      omega

/-- Claim C2 (amended): in maximum mode, when no analyzed point is
`IMPOSSIBLE`, `solve` returns exactly the spec-side best run: the leftmost
longest maximal contiguous run of `MUST_BE_IN` / `CAN_BE_EITHER` points of
the analysis universe (such a run contains no `MUST_BE_OUT` point), with
length `right − left`, except that when every maximal run is a single
point (or there are no available points) the result is `(0, none)` — see
`specStep`, which only keeps a run of positive `right − left`.  In
particular, for `P=[5,30]`, `Q=[14,23]`, `((x∈P)≡(x∈Q))→¬(x∈A)`,
target `A`, the returned interval is `[5,13]` with length 8, no
`MUST_BE_OUT` point lies in it, and no run longer than 8 exists in the
universe. -/
theorem solve_max_mode_characterization :
    (∀ (s : Solver) (c : Int → PointRequirement),
      (allPoints s.segments).isEmpty = false →
      (∀ x ∈ universeList s.segments,
        analyzePoint s.ast s.segments s.targetSet x = some (c x)) →
      (∀ x ∈ universeList s.segments, c x ≠ .IMPOSSIBLE) →
      ∃ e, s.solve true = some
        ((specBestRun (groupRuns (availList c (universeList s.segments)))).1,
         (specBestRun (groupRuns (availList c (universeList s.segments)))).2, e))
    ∧ parseFormula "((x∈P)≡(x∈Q))→¬(x∈A)" = .ok astMaxEx
    ∧ (∀ x ∈ universeList solverMaxEx.segments,
        analyzePoint solverMaxEx.ast solverMaxEx.segments solverMaxEx.targetSet x =
          some (classMaxEx x))
    ∧ (solverMaxEx.solve true).map (fun r => (r.1, r.2.1)) = some (8, some ⟨5, 13⟩)
    ∧ specBestRun (groupRuns (availList classMaxEx (universeList solverMaxEx.segments))) =
        (8, some ⟨5, 13⟩)
    ∧ (∀ y ∈ mustOutOf classMaxEx solverMaxEx.segments, ¬(5 ≤ y ∧ y ≤ 13))
    ∧ (∀ ab ∈ groupRuns (availList classMaxEx (universeList solverMaxEx.segments)),
        ab.2 - ab.1 ≤ 8) := by
  refine ⟨?_, rfl, by decide, by decide, by decide, by decide, by decide⟩
  intro s c h0 hc hnoimp
  have himp : impossibleOf c s.segments = [] := by
    unfold impossibleOf
    rw [List.filter_eq_nil_iff]
    intro a ha
    simpa using hnoimp a ha
  have hs := solve_eq_of_classified s c true h0 hc
  rw [himp] at hs
  simp only [List.isEmpty_nil, Bool.not_true, Bool.false_eq_true, if_false, if_pos] at hs
  rw [findMaxSegment_eq_specBestRun c s.segments hnoimp] at hs
  exact ⟨_, hs⟩

/-- Witness for C2 (amended): the characterization applied to the
concrete maximum-mode example, hypotheses discharged by evaluation. -/
theorem solve_max_mode_characterization_witness :
    ∃ e, solverMaxEx.solve true = some
      ((specBestRun (groupRuns (availList classMaxEx (universeList solverMaxEx.segments)))).1,
       (specBestRun (groupRuns (availList classMaxEx (universeList solverMaxEx.segments)))).2,
       e) :=
  solve_max_mode_characterization.1 solverMaxEx classMaxEx rfl (by decide) (by decide)

/-- Claim C2, counterexample: for `(x∈A)→(x∈P)` with `P=[5,5]` and target
`A`, no universe point is `IMPOSSIBLE` and the point 5 is available
(`CAN_BE_EITHER`), so the longest contiguous run of available points is
the nonempty run `{5}`; yet maximum mode returns length 0 with **no**
interval — the returned interval is not the longest contiguous run as the
claim states. -/
theorem solve_max_singleton_run_no_interval :
    (∀ x ∈ universeList solverSingleton.segments,
      analyzePoint solverSingleton.ast solverSingleton.segments solverSingleton.targetSet x =
        some (if x = 5 then .CAN_BE_EITHER else .MUST_BE_OUT))
    ∧ analyzePoint solverSingleton.ast solverSingleton.segments solverSingleton.targetSet 5 =
        some .CAN_BE_EITHER
    ∧ (solverSingleton.solve true).map (fun r => (r.1, r.2.1)) = some (0, none)
    ∧ parseFormula "(x∈A)→(x∈P)" = .ok astSingleton :=
  ⟨by decide, by decide, by decide, rfl⟩
